import Mathlib

/-!
# Verification of the `webgl.js` 2D quad-batching renderer

A shallow embedding, in Lean 4, of the quad batching, sorting and buffered
submission pipeline from `src/samples/webgl-sprite/scripts/webgl_render2d.js`
(`QuadBatch`, `QuadEffect`, `QuadVertex.ptcg`), together with proofs of the
behavioural properties claimed for it.

Modelling conventions:
* JavaScript typed arrays (`Float32Array`, `Uint16Array`, `Uint32Array`) are
  modelled as Lean `List`s of fixed length.  An in-bounds store is `List.set`
  (out-of-bounds stores are dropped, as they are for JS typed arrays); a load
  is `List.getD _ 0` (the default is irrelevant for in-bounds reads, which are
  the only reads exercised by the theorems below).  Stores into a
  `Uint16Array` / `Uint32Array` are masked modulo `2^16` / `2^32` as in JS.
  `Float32Array` values are idealised as exact rationals `Rat`.
* JavaScript values compared with `!==` in the render-state logic are
  modelled by the type `JVal` with constructors for `null`, `undefined` and
  opaque application state tokens.
* GPU side effects (`gl.drawIndexed`, `gl.uploadArrayBufferRegion`, ...) are
  recorded in an explicit trace (`GLOp`), so that theorems can count draw
  calls and uploads.
* The `while` loops of `siftDown` and `drawBatch` are written with an
  explicit fuel parameter.  For `siftDown` the fuel `e.toNat + 2` is provably
  sufficient for any comparator that is irreflexive at equal values (the two
  comparators shipped with the source are); a pathological comparator can
  make the JS loop diverge, and then the fuelled function returns the state
  of the loop at fuel exhaustion.  All invariants proved below hold at every
  fuel, i.e. at every intermediate state of the loop.
-/

/-- A JavaScript value as far as the renderer's state handling observes it:
`null`, `undefined`, or an opaque application-defined state token (compared
with `!==`, i.e. by identity; tokens are indexed by `Nat`). -/
inductive JVal where
  | null : JVal
  | undef : JVal
  | tok : Nat → JVal
deriving DecidableEq, Repr

/-- The columnar per-quad store of `webgl_render2d.js` (`QuadBatch`
constructor, lines 508-526).  Each field is one of the typed attribute
arrays; `order` is the insertion-order index array permuted by sorting. -/
structure QuadBatch where
  /-- `Uint16Array(capacity * 1)`, insertion order. -/
  order : List Nat
  /-- `Float32Array(capacity * 4)`, source rect XYWH. -/
  sourceRects : List Rat
  /-- `Float32Array(capacity * 4)`, target rect XYWH. -/
  targetRects : List Rat
  /-- `Float32Array(capacity * 2)`, rotation origin XY. -/
  originPoint : List Rat
  /-- `Float32Array(capacity * 2)`, inverse image dimensions UV. -/
  scaleFactor : List Rat
  /-- `Uint32Array(capacity * 1)`, packed ARGB tint. -/
  tintColor : List Nat
  /-- `Float32Array(capacity * 1)`, radians. -/
  orientation : List Rat
  /-- `Float32Array(capacity * 1)`, layer depth. -/
  depth : List Rat
  /-- JS `Array(capacity)` of per-quad state, initially all `undefined`. -/
  state : List JVal
  /-- number of quads currently in use. -/
  quadCount : Nat
  /-- allocated capacity, set by `resize`. -/
  quadCapacity : Nat
deriving Repr

/-- `QuadBatch.MAX_CAPACITY` (line 529 of the source): the declared maximum
capacity of a quad batch. -/
def QuadBatch.MAX_CAPACITY : Nat := 65536

/-- `QuadBatch.prototype.flush` (lines 644-648): reset `quadCount` to 0. -/
def QuadBatch.flush (b : QuadBatch) : QuadBatch :=
  { b with quadCount := 0 }

/-- `QuadBatch.prototype.resize` (lines 575-591).  Note: the source guards
with `if (capacity > QuadBatch.MAX_CAPCITY) capacity = QuadBatch.MAX_CAPCITY;`
where `MAX_CAPCITY` is a misspelling of `MAX_CAPACITY`; the property is
`undefined`, and in JS `x > undefined` evaluates to `false` for every `x`,
so the clamp never fires.  The embedding therefore allocates exactly the
requested capacity, faithfully to the code as written. -/
def QuadBatch.resize (b : QuadBatch) (capacity : Nat) : QuadBatch :=
  (QuadBatch.flush
    { b with
      order := List.replicate (capacity * 1) 0
      sourceRects := List.replicate (capacity * 4) 0
      targetRects := List.replicate (capacity * 4) 0
      originPoint := List.replicate (capacity * 2) 0
      scaleFactor := List.replicate (capacity * 2) 0
      tintColor := List.replicate (capacity * 1) 0
      orientation := List.replicate (capacity * 1) 0
      depth := List.replicate (capacity * 1) 0
      state := List.replicate capacity JVal.undef
      quadCount := 0
      quadCapacity := capacity })

/-- The `QuadBatch` constructor (lines 508-526): fields start out null and
are then allocated by `resize(capacity || 2048)`. -/
def QuadBatch.create (capacity : Nat) : QuadBatch :=
  QuadBatch.resize
    { order := [], sourceRects := [], targetRects := [], originPoint := []
      scaleFactor := [], tintColor := [], orientation := [], depth := []
      state := [], quadCount := 0, quadCapacity := 0 }
    (if capacity = 0 then 2048 else capacity)

/-- `QuadBatch.prototype.add` (lines 615-640).  Returns the updated batch
together with the returned insertion index `bi`.  The `order` store is a
`Uint16Array` store (masked mod `2^16`), `tintColor` a `Uint32Array` store
(masked mod `2^32`). -/
def QuadBatch.add (b : QuadBatch) (state : JVal)
    (x y depth originX originY scaleX scaleY orientation : Rat) (color : Nat)
    (sourceX sourceY sourceWidth sourceHeight imageWidth imageHeight : Rat) :
    QuadBatch × Nat :=
  let bi := b.quadCount
  let i4 := bi * 4
  let i2 := bi * 2
  let i1 := bi
  ({ b with
      sourceRects := ((((b.sourceRects.set (i4 + 0) sourceX).set (i4 + 1)
        sourceY).set (i4 + 2) sourceWidth).set (i4 + 3) sourceHeight)
      targetRects := ((((b.targetRects.set (i4 + 0) x).set (i4 + 1)
        y).set (i4 + 2) (sourceWidth * scaleX)).set (i4 + 3)
        (sourceHeight * scaleY))
      originPoint := ((b.originPoint.set (i2 + 0) originX).set (i2 + 1)
        originY)
      scaleFactor := ((b.scaleFactor.set (i2 + 0) (1 / imageWidth)).set
        (i2 + 1) (1 / imageHeight))
      tintColor := b.tintColor.set i1 (color % 4294967296)
      orientation := b.orientation.set i1 orientation
      depth := b.depth.set i1 depth
      state := b.state.set i1 state
      order := b.order.set i1 (bi % 65536)
      quadCount := bi + 1 }, bi)

/-- `QuadBatch.backToFront` (lines 539-548): larger depth sorts first,
ties broken by insertion index. -/
def QuadBatch.backToFront (b : QuadBatch) (ia ib : Nat) : Int :=
  let depthA := b.depth.getD ia 0
  let depthB := b.depth.getD ib 0
  if depthA < depthB then 1
  else if depthA > depthB then -1
  else if ia > ib then 1 else if ia < ib then -1 else 0

/-- `QuadBatch.frontToBack` (lines 558-567): smaller depth sorts first,
ties broken by insertion index. -/
def QuadBatch.frontToBack (b : QuadBatch) (ia ib : Nat) : Int :=
  let depthA := b.depth.getD ia 0
  let depthB := b.depth.getD ib 0
  if depthA < depthB then -1
  else if depthA > depthB then 1
  else if ia > ib then 1 else if ia < ib then -1 else 0

/-- The `while ((root << 1) <= e)` loop of `QuadBatch.prototype.siftDown`
(lines 659-678), with explicit fuel.  `root` is the loop variable; `e` is the
(possibly negative, hence `Int`) end of the heap range; the comparator
receives the current batch, exactly as `compare(this, ...)` does. -/
def QuadBatch.siftDownFuel (cmp : QuadBatch → Nat → Nat → Int) (e : Int) :
    Nat → Nat → QuadBatch → QuadBatch
  | 0, _, b => b
  | fuel + 1, root, b =>
    if (2 * root : Int) ≤ e then
      let array := b.order
      let child0 := 2 * root
      let child :=
        if (child0 : Int) < e ∧
            cmp b (array.getD child0 0) (array.getD (child0 + 1) 0) < 0
        then child0 + 1 else child0
      if cmp b (array.getD root 0) (array.getD child 0) < 0 then
        let temp := array.getD child 0
        let a1 := array.set child (array.getD root 0)
        let a2 := a1.set root temp
        QuadBatch.siftDownFuel cmp e fuel child { b with order := a2 }
      else b
    else b

/-- `QuadBatch.prototype.siftDown` (lines 659-678).  The fuel `e.toNat + 2`
is sufficient for every comparator that is irreflexive on equal values; see
the module comment. -/
def QuadBatch.siftDown (b : QuadBatch) (s : Nat) (e : Int)
    (cmp : QuadBatch → Nat → Nat → Int) : QuadBatch :=
  QuadBatch.siftDownFuel cmp e (e.toNat + 2) s b

/-- The `while (s >= 0) { this.siftDown(s--, c - 1, compare); }` loop of
`QuadBatch.prototype.heapify` (lines 687-695): processes roots `s, s-1,
..., 0`. -/
def QuadBatch.heapifyFrom (cmp : QuadBatch → Nat → Nat → Int) (e : Int) :
    Nat → QuadBatch → QuadBatch
  | 0, b => QuadBatch.siftDown b 0 e cmp
  | s + 1, b => QuadBatch.heapifyFrom cmp e s (QuadBatch.siftDown b (s + 1) e cmp)

/-- `QuadBatch.prototype.heapify` (lines 687-695): `s` starts at
`quadCount >> 1` and the range end is `quadCount - 1` (an `Int`: it is `-1`
for an empty batch, exactly as in JS). -/
def QuadBatch.heapify (b : QuadBatch) (cmp : QuadBatch → Nat → Nat → Int) :
    QuadBatch :=
  QuadBatch.heapifyFrom cmp ((b.quadCount : Int) - 1) (b.quadCount / 2) b

/-- The `while (e > 0)` pop loop of `QuadBatch.prototype.sort` (lines
705-718): swap `a[0]` and `a[e]`, then `siftDown(0, --e)`. -/
def QuadBatch.sortGo (cmp : QuadBatch → Nat → Nat → Int) :
    Nat → QuadBatch → QuadBatch
  | 0, b => b
  | e + 1, b =>
    let a := b.order
    let t := a.getD 0 0
    let a1 := a.set 0 (a.getD (e + 1) 0)
    let a2 := a1.set (e + 1) t
    QuadBatch.sortGo cmp e
      (QuadBatch.siftDown { b with order := a2 } 0 (e : Int) cmp)

/-- `QuadBatch.prototype.sort` (lines 705-718): heapify, then pop-to-end.
(`e` starts at `quadCount - 1`; for `quadCount = 0` the JS loop with
`e = -1` does not run, matching `Nat` truncation here.) -/
def QuadBatch.sort (b : QuadBatch) (cmp : QuadBatch → Nat → Nat → Int) :
    QuadBatch :=
  QuadBatch.sortGo cmp (b.quadCount - 1) (QuadBatch.heapify b cmp)

/-- One recorded GPU-side effect of the `QuadEffect` methods.  `genVertices`
and `genIndices` record the invocations of the vertex-generation callback
and of `generateIndices` (the staging memory they fill is not needed by the
theorems about cursors and draw calls); `uploadVB`/`uploadIB` record
`gl.uploadArrayBufferRegion`/`gl.uploadIndexBufferRegion` with the byte
offset and amount computed by `bufferData`; `drawIndexed` records
`gl.drawIndexed(indexCount, baseIndex)`; `applyState` records an invocation
of the caller's `applyState` callback. -/
inductive GLOp where
  | genVertices (baseVertex offset quadCount : Nat)
  | genIndices (baseIndex baseVertex quadCount : Nat)
  | uploadVB (byteOffset byteAmount : Nat)
  | uploadIB (byteOffset elemAmount : Nat)
  | drawIndexed (indexCount baseIndex : Nat)
  | applyState (s : JVal)
deriving DecidableEq, Repr

/-- `true` exactly for an indexed-draw trace entry. -/
def GLOp.isDraw : GLOp → Bool
  | GLOp.drawIndexed _ _ => true
  | _ => false

/-- The cursor/state part of a `QuadEffect` (constructor lines 177-205 and
`createResources` lines 217-293).  GPU handles and staging memory are not
modelled; `vertexSize`/`indexSize` are the `elementSize` of the vertex and
index buffer proxies (bytes per vertex record and per index). -/
structure QuadEffect where
  currentState : JVal
  vertexCapacity : Nat
  vertexOffset : Nat
  indexCapacity : Nat
  indexOffset : Nat
  vertexSize : Nat
  indexSize : Nat
deriving DecidableEq, Repr

/-- The capacity-related effects of `QuadEffect.prototype.createResources`
(lines 217-293) on a fresh effect: `vertexCapacity = capacity * 4`,
`indexCapacity = capacity * 6`, cursors 0, `currentState` still `null` from
the constructor; `vertexSize` is the computed vertex stride and
`indexSize = 2` (`Uint16Array.BYTES_PER_ELEMENT`). -/
def QuadEffect.create (vertexSize capacity : Nat) : QuadEffect :=
  { currentState := JVal.null
    vertexCapacity := capacity * 4
    vertexOffset := 0
    indexCapacity := capacity * 6
    indexOffset := 0
    vertexSize := vertexSize
    indexSize := 2 }

/-- `QuadEffect.prototype.makeCurrent` (lines 336-349), restricted to its
effect on the modelled state: `this.currentState = null`.  (The GL binding
calls and the `setupProgram` callback touch only unmodelled state.) -/
def QuadEffect.makeCurrent (eff : QuadEffect) : QuadEffect :=
  { eff with currentState := JVal.null }

/-- `QuadEffect.prototype.bufferData` (lines 361-419).  Returns the number
of quads buffered, the updated effect, and the trace of GPU operations.
Mirrors the source: clamp to remaining ring space, early-out on zero quads,
generate vertices/indices, upload the written regions, advance the cursors
and wrap both to 0 when the vertex cursor reaches capacity exactly. -/
def QuadEffect.bufferData (eff : QuadEffect) (batch : QuadBatch)
    (offset count : Nat) : Nat × QuadEffect × List GLOp :=
  let numIndices := count * 6
  let numVertices := count * 4
  let baseIndex := eff.indexOffset
  let baseVertex := eff.vertexOffset
  let maxIndices := eff.indexCapacity
  let maxVertices := eff.vertexCapacity
  let clamped :=
    if maxVertices < baseVertex + numVertices then
      (maxVertices - baseVertex, maxIndices - baseIndex)
    else (numVertices, numIndices)
  let quadCount := clamped.1 / 4
  if quadCount = 0 then (0, eff, [])
  else
    let offsetVB := baseVertex * eff.vertexSize
    let amountVB := quadCount * eff.vertexSize * 4
    let offsetIB := baseIndex * eff.indexSize
    let amountIB := quadCount * 6
    let indexOffset1 := eff.indexOffset + quadCount * 6
    let vertexOffset1 := eff.vertexOffset + quadCount * 4
    let wrapped :=
      if maxVertices = vertexOffset1 then (0, 0)
      else (vertexOffset1, indexOffset1)
    (quadCount,
     { eff with vertexOffset := wrapped.1, indexOffset := wrapped.2 },
     [GLOp.genVertices baseVertex offset quadCount,
      GLOp.genIndices baseIndex baseVertex quadCount,
      GLOp.uploadVB offsetVB amountVB,
      GLOp.uploadIB offsetIB amountIB])

/-- The per-quad state token examined by `drawRegion` at loop position `i`:
`state[order[i]]` (source lines 446-447; an unset JS array slot reads as
`undefined`). -/
def QuadBatch.tokAt (b : QuadBatch) (i : Nat) : JVal :=
  b.state.getD (b.order.getD i 0) JVal.undef

/-- Result accumulator of the `drawRegion` loop: the running applied state
`state0`, the start `index` of the current sub-batch, the running
`baseIndex`, and the trace emitted so far. -/
structure RegionAcc where
  state0 : JVal
  index : Nat
  base : Nat
  ops : List GLOp
deriving Repr

/-- The `for (var i = 0; i < count; ++i)` loop of
`QuadEffect.prototype.drawRegion` (lines 444-463), iterating over the list
of per-quad state tokens it examines (`toks`), carrying the loop position
`i`.  On a state change with a non-empty run, one `drawIndexed` is emitted
before the `applyState`. -/
def drawRegionLoop : List JVal → Nat → Nat → Nat → JVal → RegionAcc
  | [], _, index, base, state0 =>
    { state0 := state0, index := index, base := base, ops := [] }
  | t :: rest, i, index, base, state0 =>
    if t ≠ state0 then
      if index < i then
        let nindex := (i - index) * 6
        let r := drawRegionLoop rest (i + 1) i (base + nindex) t
        { r with
          ops := GLOp.drawIndexed nindex base :: GLOp.applyState t :: r.ops }
      else
        let r := drawRegionLoop rest (i + 1) i base t
        { r with ops := GLOp.applyState t :: r.ops }
    else
      drawRegionLoop rest (i + 1) index base state0

/-- `QuadEffect.prototype.drawRegion` (lines 432-470).  NOTE: faithfully to
the source, the `offset` parameter is accepted but never read: the loop
walks `order[0] .. order[count-1]` (`for (var i = 0; i < count; ++i)`),
not `order[offset] ..`.  After the loop one final `drawIndexed` covers the
trailing sub-batch and `currentState` is set to the last examined token
(which equals the running applied state). -/
def QuadEffect.drawRegion (eff : QuadEffect) (batch : QuadBatch)
    (offset count baseIndex : Nat) : QuadEffect × List GLOp :=
  let toks := (List.range count).map (fun i => QuadBatch.tokAt batch i)
  let acc := drawRegionLoop toks 0 0 baseIndex eff.currentState
  let nquad := count - acc.index
  let nindex := nquad * 6
  ({ eff with currentState := acc.state0 },
   acc.ops ++ [GLOp.drawIndexed nindex acc.base])

/-- The `while (quadCount > 0)` loop of `QuadEffect.prototype.drawBatch`
(lines 487-498), with fuel (one unit per iteration; the initial fuel
`batch.quadCount` is enough whenever every pass buffers at least one quad).
Returns the final effect, the concatenated trace, the list of
`(quadsBuffered, vertexOffset after the pass)` per buffering pass, and the
number of quads still unsubmitted (0 when the loop completed). -/
def QuadEffect.drawBatchGo (batch : QuadBatch) :
    Nat → QuadEffect → Nat → Nat → Nat →
    QuadEffect × List GLOp × List (Nat × Nat) × Nat
  | _, eff, _, 0, _ => (eff, [], [], 0)
  | 0, eff, _, quadCount + 1, _ => (eff, [], [], quadCount + 1)
  | fuel + 1, eff, quadIndex, quadCount + 1, baseIndex =>
    let r1 := QuadEffect.bufferData eff batch quadIndex (quadCount + 1)
    let n := r1.1
    let eff1 := r1.2.1
    let r2 := QuadEffect.drawRegion eff1 batch quadIndex n baseIndex
    let rest := QuadEffect.drawBatchGo batch fuel r2.1 (quadIndex + n)
      (quadCount + 1 - n) eff1.indexOffset
    (rest.1, r1.2.2 ++ r2.2 ++ rest.2.1, (n, eff1.vertexOffset) :: rest.2.2.1,
     rest.2.2.2)

/-- `QuadEffect.prototype.drawBatch` (lines 481-500): `baseIndex` starts at
`this.indexOffset`, the logical quad index at 0, and the loop runs while
quads remain, rebasing `baseIndex` to the post-`bufferData` index cursor
after every pass. -/
def QuadEffect.drawBatch (eff : QuadEffect) (batch : QuadBatch) :
    QuadEffect × List GLOp × List (Nat × Nat) × Nat :=
  QuadEffect.drawBatchGo batch batch.quadCount eff 0 batch.quadCount
    eff.indexOffset

/-- `QuadVertex.XCornerOffsets` (line 25). -/
def QuadVertex.XCornerOffsets : List Rat := [0, 1, 1, 0]

/-- `QuadVertex.YCornerOffsets` (line 29). -/
def QuadVertex.YCornerOffsets : List Rat := [0, 0, 1, 1]

/-- The view parameters `ptcg` reads from the object produced by
`WebGL.createBufferViews`: for each of the three attributes, the per-vertex
stride (`sizes[i]`) and base offset (`baseOffsets[i]`), both counted in
elements of that attribute's view type (floats for `aPTX`/`aDGG`, bytes for
`aCLR`), following the element-unit convention of
`GLContext.interleaveArrays` in `webgl.js`. -/
structure BufferView where
  /-- stride of the position/texture view, in floats (`sizes[0]`). -/
  asp : Nat
  /-- stride of the color view, in bytes (`sizes[1]`). -/
  asc : Nat
  /-- stride of the generic-attribute view, in floats (`sizes[2]`). -/
  asa : Nat
  /-- base offset of position/texture (`baseOffsets[0]`). -/
  aop : Nat
  /-- base offset of color (`baseOffsets[1]`). -/
  aoc : Nat
  /-- base offset of the generic attributes (`baseOffsets[2]`). -/
  aoa : Nat
deriving DecidableEq, Repr

/-- The view induced by the `QuadVertex.PTCG` layout (lines 35-39): a
32-byte vertex; `aPTX` is 4 floats at byte 0, `aCLR` 4 bytes at byte 16,
`aDGG` 3 floats at byte 20.  In element units: strides 8 floats / 32 bytes /
8 floats, offsets 0 / 16 / 5. -/
def QuadVertex.PTCGView : BufferView :=
  { asp := 8, asc := 32, asa := 8, aop := 0, aoc := 16, aoa := 5 }

/-- One vertex written to the position/texture stream: the element offset
`aip` and the four floats `x, y, u, v` (lines 130-133). -/
structure PtxWrite where
  off : Nat
  x : Rat
  y : Rat
  u : Rat
  v : Rat
deriving DecidableEq, Repr

/-- One vertex written to the color stream: the element offset `aic` and
the four bytes `cR, cG, cB, cA` (lines 134-137). -/
structure ClrWrite where
  off : Nat
  cR : Nat
  cG : Nat
  cB : Nat
  cA : Nat
deriving DecidableEq, Repr

/-- One vertex written to the generic-attribute stream: the element offset
`aia` and the three floats `d, g0, g1` (lines 138-140). -/
structure AtrWrite where
  off : Nat
  d : Rat
  g0 : Rat
  g1 : Rat
deriving DecidableEq, Repr

/-- The data written by `QuadVertex.ptcg` for the single quad at sorted
position `i`, given the current write counters `aip`/`aic`/`aia` (one
iteration of the outer loop, lines 92-145; the inner 4-corner loop advances
each counter by the corresponding stride per corner, here written as
`+ j * stride`).  `Math.sin`/`Math.cos` are abstracted as the function
parameters `jsin`/`jscos`.  The color extraction `(c >>> shift) & 0xFF` on
the `Uint32` value `c` (JS coerces through `ToInt32`, then the sign bits are
removed again by `& 0xFF`) equals `(c / 2^shift) % 256`. -/
def QuadVertex.ptcgQuad (jsin jscos : Rat → Rat) (view : BufferView)
    (batch : QuadBatch) (i aip aic aia : Nat) :
    List PtxWrite × List ClrWrite × List AtrWrite :=
  let ai1 := batch.order.getD i 0
  let ai2 := ai1 * 2
  let ai4 := ai1 * 4
  let sx := batch.sourceRects.getD (ai4 + 0) 0
  let sy := batch.sourceRects.getD (ai4 + 1) 0
  let sw := batch.sourceRects.getD (ai4 + 2) 0
  let sh := batch.sourceRects.getD (ai4 + 3) 0
  let dx := batch.targetRects.getD (ai4 + 0) 0
  let dy := batch.targetRects.getD (ai4 + 1) 0
  let dw := batch.targetRects.getD (ai4 + 2) 0
  let dh := batch.targetRects.getD (ai4 + 3) 0
  let xc := batch.originPoint.getD (ai2 + 0) 0 / sw
  let yc := batch.originPoint.getD (ai2 + 1) 0 / sh
  let c := batch.tintColor.getD ai1 0
  let cR := (c / 2 ^ 24) % 256
  let cG := (c / 2 ^ 16) % 256
  let cB := (c / 2 ^ 8) % 256
  let cA := c % 256
  let d := 1 / batch.depth.getD ai1 0
  let su := batch.scaleFactor.getD (ai2 + 0) 0
  let sv := batch.scaleFactor.getD (ai2 + 1) 0
  let st := jsin (batch.orientation.getD ai1 0)
  let ct := jscos (batch.orientation.getD ai1 0)
  let g0 : Rat := 0
  let g1 : Rat := 0
  ((List.range 4).map fun j =>
      let xo := QuadVertex.XCornerOffsets.getD j 0
      let yo := QuadVertex.YCornerOffsets.getD j 0
      let xd := (xo - xc) * dw
      let yd := (yo - yc) * dh
      { off := aip + j * view.asp
        x := (dx + (xd * ct)) - (yd * st)
        y := (dy + (xd * st)) + (yd * ct)
        u := (sx + (xo * sw)) * su
        v := (sy + (yo * sh)) * sv },
   (List.range 4).map fun j =>
      { off := aic + j * view.asc, cR := cR, cG := cG, cB := cB, cA := cA },
   (List.range 4).map fun j =>
      { off := aia + j * view.asa, d := d, g0 := g0, g1 := g1 })

/-- The outer `for (var i = batchOffset; i < batchOffset + quadCount; ++i)`
loop of `QuadVertex.ptcg` (lines 92-145), by recursion on the number of
quads remaining, threading the three write counters. -/
def QuadVertex.ptcgGo (jsin jscos : Rat → Rat) (view : BufferView)
    (batch : QuadBatch) :
    Nat → Nat → Nat → Nat → Nat → List PtxWrite × List ClrWrite × List AtrWrite
  | 0, _, _, _, _ => ([], [], [])
  | n + 1, i, aip, aic, aia =>
    let q := QuadVertex.ptcgQuad jsin jscos view batch i aip aic aia
    let rest := QuadVertex.ptcgGo jsin jscos view batch n (i + 1)
      (aip + 4 * view.asp) (aic + 4 * view.asc) (aia + 4 * view.asa)
    (q.1 ++ rest.1, q.2.1 ++ rest.2.1, q.2.2 ++ rest.2.2)

/-- `QuadVertex.ptcg` (lines 51-146), as the sequence of writes it makes to
the three attribute streams.  The initial counters are
`bufferOffset * stride + baseOffset` (lines 67-69). -/
def QuadVertex.ptcg (jsin jscos : Rat → Rat) (view : BufferView)
    (bufferOffset : Nat) (batch : QuadBatch) (batchOffset quadCount : Nat) :
    List PtxWrite × List ClrWrite × List AtrWrite :=
  QuadVertex.ptcgGo jsin jscos view batch quadCount batchOffset
    (bufferOffset * view.asp + view.aop)
    (bufferOffset * view.asc + view.aoc)
    (bufferOffset * view.asa + view.aoa)

/-- Pure mirror of `QuadBatch.siftDownFuel` acting on the bare `order`
array, for a comparator `c` on stored indices that does not depend on the
batch.  Used to reason about the sort of a batch whose comparator reads
only the (sort-invariant) `depth` array; the bridge is
`siftDownFuel_order_eq` below. -/
def psiftFuel (c : Nat → Nat → Int) (e : Int) : Nat → Nat → List Nat → List Nat
  | 0, _, a => a
  | fuel + 1, root, a =>
    if (2 * root : Int) ≤ e then
      let child0 := 2 * root
      let child :=
        if (child0 : Int) < e ∧ c (a.getD child0 0) (a.getD (child0 + 1) 0) < 0
        then child0 + 1 else child0
      if c (a.getD root 0) (a.getD child 0) < 0 then
        let temp := a.getD child 0
        let a1 := a.set child (a.getD root 0)
        let a2 := a1.set root temp
        psiftFuel c e fuel child a2
      else a
    else a

/-- Pure mirror of `QuadBatch.siftDown`. -/
def psift (c : Nat → Nat → Int) (e : Int) (s : Nat) (a : List Nat) : List Nat :=
  psiftFuel c e (e.toNat + 2) s a

/-- Pure mirror of `QuadBatch.heapifyFrom`. -/
def pheapFrom (c : Nat → Nat → Int) (e : Int) : Nat → List Nat → List Nat
  | 0, a => psift c e 0 a
  | s + 1, a => pheapFrom c e s (psift c e (s + 1) a)

/-- Pure mirror of `QuadBatch.heapify` for a batch of `n` quads. -/
def pheap (c : Nat → Nat → Int) (n : Nat) (a : List Nat) : List Nat :=
  pheapFrom c ((n : Int) - 1) (n / 2) a

/-- Pure mirror of `QuadBatch.sortGo`. -/
def psortGo (c : Nat → Nat → Int) : Nat → List Nat → List Nat
  | 0, a => a
  | e + 1, a =>
    let t := a.getD 0 0
    let a1 := a.set 0 (a.getD (e + 1) 0)
    let a2 := a1.set (e + 1) t
    psortGo c e (psift c (e : Int) 0 a2)

/-- Pure mirror of `QuadBatch.sort` for a batch of `n` quads. -/
def psort (c : Nat → Nat → Int) (n : Nat) (a : List Nat) : List Nat :=
  psortGo c (n - 1) (pheap c n a)

/-- `x` is at most `y` in the order induced by comparator `c`:
`c` does not order `y` strictly before `x`. -/
def cmpLe (c : Nat → Nat → Int) (x y : Nat) : Prop := ¬ c y x < 0

/-- A comparator describing a strict total order on stored values:
asymmetric, transitive, and connected. -/
structure StrictCmp (c : Nat → Nat → Int) : Prop where
  asymm : ∀ x y, c x y < 0 → ¬ c y x < 0
  lt_trans : ∀ x y z, c x y < 0 → c y z < 0 → c x z < 0
  conn : ∀ x y, x ≠ y → c x y < 0 ∨ c y x < 0

/-- The heap shape used by the source's sift: the parent of node `j ≥ 1` is
`j / 2` (children of `r ≥ 1` are `2r`/`2r+1`; node `0`'s only child is
node `1`).  `heapAnc r j` says `r` is an ancestor (or equal) of `j`. -/
def heapAnc (r j : Nat) : Prop := ∃ k, j / 2 ^ k = r

/-- The heap property on positions `[0, e]` of `a` w.r.t. comparator `c`:
every node other than the top is `cmpLe` its parent. -/
def IsHeapUpTo (c : Nat → Nat → Int) (e : Int) (a : List Nat) : Prop :=
  ∀ j : Nat, 1 ≤ j → (j : Int) ≤ e → cmpLe c (a.getD j 0) (a.getD (j / 2) 0)

/-- One externally-visible `QuadBatch` mutation: an `add` (with its 16
arguments) or a `sort` (with an arbitrary comparator). -/
inductive BOp where
  | addQuad (state : JVal)
      (x y depth originX originY scaleX scaleY orientation : Rat)
      (color : Nat)
      (sourceX sourceY sourceWidth sourceHeight imageWidth imageHeight : Rat) :
      BOp
  | sortQuads (cmp : QuadBatch → Nat → Nat → Int) : BOp

/-- Apply one `BOp` to a batch. -/
def BOp.apply (b : QuadBatch) : BOp → QuadBatch
  | BOp.addQuad st x y depth originX originY scaleX scaleY orientation color
      sourceX sourceY sourceWidth sourceHeight imageWidth imageHeight =>
    (b.add st x y depth originX originY scaleX scaleY orientation color
      sourceX sourceY sourceWidth sourceHeight imageWidth imageHeight).1
  | BOp.sortQuads cmp => b.sort cmp

/-- Apply a sequence of `BOp`s, left to right. -/
def BOp.applyAll (b : QuadBatch) : List BOp → QuadBatch
  | [] => b
  | op :: rest => BOp.applyAll (BOp.apply b op) rest

/-- Every `add` in the sequence is issued while `quadCount < quadCapacity`
(the documented precondition of `add`). -/
def BOp.okAll (b : QuadBatch) : List BOp → Bool
  | [] => true
  | op :: rest =>
    (match op with
     | BOp.addQuad _ _ _ _ _ _ _ _ _ _ _ _ _ _ _ _ =>
       decide (b.quadCount < b.quadCapacity)
     | BOp.sortQuads _ => true) && BOp.okAll (BOp.apply b op) rest

/-- All fields of a `QuadBatch` other than `order` agree between `b`
and `b2`. -/
def QuadBatch.sameExceptOrder (b b2 : QuadBatch) : Prop :=
  b2.sourceRects = b.sourceRects ∧ b2.targetRects = b.targetRects ∧
  b2.originPoint = b.originPoint ∧ b2.scaleFactor = b.scaleFactor ∧
  b2.tintColor = b.tintColor ∧ b2.orientation = b.orientation ∧
  b2.depth = b.depth ∧ b2.state = b.state ∧
  b2.quadCount = b.quadCount ∧ b2.quadCapacity = b.quadCapacity

/-- The number of positions `i` in `[1, n)` at which the state token of the
quad at sorted position `i` differs from the one at sorted position `i - 1`
(the `K` of the draw-call-coalescing property). -/
def QuadBatch.stateChangeCount (b : QuadBatch) (n : Nat) : Nat :=
  (List.range (n - 1)).countP fun i =>
    decide (QuadBatch.tokAt b (i + 1) ≠ QuadBatch.tokAt b i)

/-- The number of state changes along a token list, measured against the
state `s0` in force before the first token (each position whose token
differs from its predecessor counts one). -/
def tokenChanges (s0 : JVal) : List JVal → Nat
  | [] => 0
  | t :: rest => (if t ≠ s0 then 1 else 0) + tokenChanges t rest

/-- Concrete scenario for the sort-correctness claim: a capacity-4 batch
with three quads inserted in order with depths 3, 1, 2. -/
def c5Batch : QuadBatch :=
  (((((QuadBatch.create 4).add (JVal.tok 0) 0 0 3 0 0 1 1 0 0 0 0 16 16 64
    64).1).add (JVal.tok 0) 0 0 1 0 0 1 1 0 0 0 0 16 16 64 64).1.add
    (JVal.tok 0) 0 0 2 0 0 1 1 0 0 0 0 16 16 64 64).1

/-- Concrete scenario for the pass-walking claim: two quads with distinct
state tokens `tok 0` and `tok 1`. -/
def c2Batch : QuadBatch :=
  (((QuadBatch.create 2).add (JVal.tok 0) 0 0 0 0 0 1 1 0 0 0 0 16 16 64
    64).1.add (JVal.tok 1) 0 0 0 0 0 1 1 0 0 0 0 16 16 64 64).1

/-- A ring that holds exactly one quad (vertex stride 32), just made
current, for the pass-walking claim. -/
def c2Eff : QuadEffect := (QuadEffect.create 32 1).makeCurrent

/-- Concrete batch for the coalescing witness: five quads whose states in
sorted order are `tok 1, tok 1, tok 2, tok 2, tok 3` (two changes). -/
def c1Batch : QuadBatch :=
  { order := [0, 1, 2, 3, 4]
    sourceRects := List.replicate 20 0
    targetRects := List.replicate 20 0
    originPoint := List.replicate 10 0
    scaleFactor := List.replicate 10 0
    tintColor := List.replicate 5 0
    orientation := List.replicate 5 0
    depth := List.replicate 5 0
    state := [JVal.tok 1, JVal.tok 1, JVal.tok 2, JVal.tok 2, JVal.tok 3]
    quadCount := 5
    quadCapacity := 5 }

/-- A ring of capacity 8 quads, just made current, for the coalescing
witness. -/
def c1Eff : QuadEffect := (QuadEffect.create 32 8).makeCurrent

/-- Concrete batch for the ring-wrap witness: 5 = 2*2+1 quads with uniform
state `tok 7`. -/
def c4Batch : QuadBatch :=
  { c1Batch with state := List.replicate 5 (JVal.tok 7) }

/-- A ring of capacity 2 quads, just made current, for the ring-wrap
witness. -/
def c4Eff : QuadEffect := (QuadEffect.create 32 2).makeCurrent

/-- Concrete batch for the stability witness: three quads, the first and
third sharing depth 5. -/
def c6Batch : QuadBatch :=
  (((((QuadBatch.create 4).add (JVal.tok 0) 0 0 5 0 0 1 1 0 0 0 0 16 16 64
    64).1).add (JVal.tok 0) 0 0 9 0 0 1 1 0 0 0 0 16 16 64 64).1.add
    (JVal.tok 0) 0 0 5 0 0 1 1 0 0 0 0 16 16 64 64).1

/-- Concrete operation sequence for the permutation witness: two adds
followed by a back-to-front sort and another add. -/
def c7Ops : List BOp :=
  [BOp.addQuad (JVal.tok 0) 0 0 3 0 0 1 1 0 0 0 0 16 16 64 64,
   BOp.addQuad (JVal.tok 0) 0 0 1 0 0 1 1 0 0 0 0 16 16 64 64,
   BOp.sortQuads QuadBatch.backToFront,
   BOp.addQuad (JVal.tok 0) 0 0 2 0 0 1 1 0 0 0 0 16 16 64 64]

/-- Shared attribute data for the depth-noninterference scenario: one quad,
identity order. -/
def c10Base : QuadBatch :=
  { order := [0]
    sourceRects := [3, 5, 16, 8]
    targetRects := [40, 50, 32, 16]
    originPoint := [4, 2]
    scaleFactor := [1 / 64, 1 / 32]
    tintColor := [2864434397]
    orientation := [0]
    depth := [1]
    state := [JVal.tok 0]
    quadCount := 1
    quadCapacity := 1 }

/-- The same batch with a different depth (2 instead of 1). -/
def c10Other : QuadBatch :=
  { c10Base with depth := [2] }

/-- Pure simulation of the buffering passes of `drawBatch`: given the ring
capacity `Cq` in quads, fuel, the vertex cursor in quads (`m`, i.e.
`vertexOffset / 4`) and the number of quads left, produce the list of
`(quadsBuffered, vertexOffset after the pass)` pairs and the count left
when the loop stops.  `drawBatchGo_passes` below shows `drawBatchGo`
follows this simulation from any state satisfying the ring invariant. -/
def ringPasses (Cq : Nat) : Nat → Nat → Nat → List (Nat × Nat) × Nat
  | 0, _, count => ([], count)
  | _ + 1, _, 0 => ([], 0)
  | fuel + 1, m, count + 1 =>
    let q := min (count + 1) (Cq - m)
    let m2 := if m + q = Cq then 0 else m + q
    let rest := ringPasses Cq fuel m2 (count + 1 - q)
    ((q, 4 * m2) :: rest.1, rest.2)

/-- Two batches that agree on every field except possibly `depth`. -/
def QuadBatch.sameExceptDepth (b1 b2 : QuadBatch) : Prop :=
  b1.order = b2.order ∧ b1.sourceRects = b2.sourceRects ∧
  b1.targetRects = b2.targetRects ∧ b1.originPoint = b2.originPoint ∧
  b1.scaleFactor = b2.scaleFactor ∧ b1.tintColor = b2.tintColor ∧
  b1.orientation = b2.orientation ∧ b1.state = b2.state ∧
  b1.quadCount = b2.quadCount ∧ b1.quadCapacity = b2.quadCapacity

/-- C5: for a batch holding exactly three quads inserted in order with
depths 3, 1, 2, `sort(QuadBatch.backToFront)` leaves `order = [0, 2, 1]`
and `sort(QuadBatch.frontToBack)` leaves `order = [1, 2, 0]`. -/
theorem c5_sort_depths_312 :
    (c5Batch.sort QuadBatch.backToFront).order.take 3 = [0, 2, 1] ∧
    (c5Batch.sort QuadBatch.frontToBack).order.take 3 = [1, 2, 0] ∧
    c5Batch.quadCount = 3 ∧
    c5Batch.depth.take 3 = [3, 1, 2] := by decide

/-- C8: evaluation of `resize` at the failing input 70000.  The source
declares `QuadBatch.MAX_CAPACITY = 65536`, but the guard in `resize` tests
the misspelled `MAX_CAPCITY` (which is `undefined`, so the comparison is
always false): a request of 70000 quads is NOT clamped to 65536 — the
attribute arrays are allocated at the full 70000 and `quadCapacity` is
70000, contradicting the declared maximum. -/
theorem c8_resize_unclamped :
    QuadBatch.MAX_CAPACITY = 65536 ∧
    (QuadBatch.create 70000).quadCapacity = 70000 ∧
    (QuadBatch.create 70000).order.length = 70000 ∧
    (QuadBatch.create 70000).quadCount = 0 := by
  refine ⟨rfl, rfl, ?_, rfl⟩
  show (List.replicate (70000 * 1) (0 : Nat)).length = 70000
  rw [List.length_replicate]

/-- C2: evaluation showing that a `drawBatch` pass with logical offset
`off > 0` does NOT walk the quads just buffered.  Two quads with distinct
state tokens `tok 0` / `tok 1` are submitted through a one-quad ring, so the
second pass buffers the quad at sorted position 1 (token `tok 1`); yet the
full trace applies `tok 0` once and never applies `tok 1`, because
`drawRegion` ignores its `offset` parameter and re-walks `order[0]`.  Under
the claim, the second pass would examine `state[order[1]] = tok 1` and apply
it. -/
theorem c2_drawRegion_ignores_pass_offset :
    c2Batch.tokAt 0 = JVal.tok 0 ∧
    c2Batch.tokAt 1 = JVal.tok 1 ∧
    (c2Eff.drawBatch c2Batch).2.2.1 = [(1, 0), (1, 0)] ∧
    (c2Eff.drawBatch c2Batch).2.2.2 = 0 ∧
    (c2Eff.drawBatch c2Batch).2.1.count (GLOp.applyState (JVal.tok 1)) = 0 ∧
    (c2Eff.drawBatch c2Batch).2.1.count (GLOp.applyState (JVal.tok 0)) = 1 := by
  decide

theorem QuadBatch.sameExceptOrder.refl (b : QuadBatch) : b.sameExceptOrder b :=
  ⟨rfl, rfl, rfl, rfl, rfl, rfl, rfl, rfl, rfl, rfl⟩

theorem QuadBatch.sameExceptOrder.trans {b b2 b3 : QuadBatch}
    (h1 : b.sameExceptOrder b2) (h2 : b2.sameExceptOrder b3) :
    b.sameExceptOrder b3 := by
  obtain ⟨a1, a2, a3, a4, a5, a6, a7, a8, a9, a10⟩ := h1
  obtain ⟨c1, c2, c3, c4, c5, c6, c7, c8, c9, c10⟩ := h2
  exact ⟨c1.trans a1, c2.trans a2, c3.trans a3, c4.trans a4, c5.trans a5,
    c6.trans a6, c7.trans a7, c8.trans a8, c9.trans a9, c10.trans a10⟩

theorem sameExceptOrder_orderUpdate (b : QuadBatch) (o : List Nat) :
    b.sameExceptOrder { b with order := o } :=
  ⟨rfl, rfl, rfl, rfl, rfl, rfl, rfl, rfl, rfl, rfl⟩

/-- Every intermediate state of the `siftDown` loop agrees with the input
batch on everything but `order`. -/
theorem siftDownFuel_frame (cmp : QuadBatch → Nat → Nat → Int) (e : Int) :
    ∀ (fuel root : Nat) (b : QuadBatch),
    b.sameExceptOrder (QuadBatch.siftDownFuel cmp e fuel root b)
  | 0, _, b => QuadBatch.sameExceptOrder.refl b
  | fuel + 1, root, b => by
    simp only [QuadBatch.siftDownFuel]
    split
    · split <;> split <;> first
        | exact (sameExceptOrder_orderUpdate b _).trans
            (siftDownFuel_frame cmp e fuel _ _)
        | exact QuadBatch.sameExceptOrder.refl b
    · exact QuadBatch.sameExceptOrder.refl b

theorem siftDown_frame (b : QuadBatch) (s : Nat) (e : Int)
    (cmp : QuadBatch → Nat → Nat → Int) :
    b.sameExceptOrder (b.siftDown s e cmp) :=
  siftDownFuel_frame cmp e _ s b

theorem heapifyFrom_frame (cmp : QuadBatch → Nat → Nat → Int) (e : Int) :
    ∀ (s : Nat) (b : QuadBatch),
    b.sameExceptOrder (QuadBatch.heapifyFrom cmp e s b)
  | 0, b => siftDown_frame b 0 e cmp
  | s + 1, b =>
    (siftDown_frame b (s + 1) e cmp).trans (heapifyFrom_frame cmp e s _)

theorem heapify_frame (b : QuadBatch) (cmp : QuadBatch → Nat → Nat → Int) :
    b.sameExceptOrder (b.heapify cmp) :=
  heapifyFrom_frame cmp _ _ b

theorem sortGo_frame (cmp : QuadBatch → Nat → Nat → Int) :
    ∀ (e : Nat) (b : QuadBatch), b.sameExceptOrder (QuadBatch.sortGo cmp e b)
  | 0, b => QuadBatch.sameExceptOrder.refl b
  | e + 1, b =>
    (sameExceptOrder_orderUpdate b _).trans
      ((siftDown_frame _ 0 (e : Int) cmp).trans (sortGo_frame cmp e _))

/-- C9: for every batch and every comparator, `sort` — and likewise its
internal `heapify` and `siftDown` at any arguments — modifies only the
`order` array: `sourceRects`, `targetRects`, `originPoint`, `scaleFactor`,
`tintColor`, `orientation`, `depth`, `state`, `quadCount` and
`quadCapacity` are unchanged. -/
theorem c9_sort_modifies_only_order (b : QuadBatch)
    (cmp : QuadBatch → Nat → Nat → Int) :
    b.sameExceptOrder (b.sort cmp) ∧
    b.sameExceptOrder (b.heapify cmp) ∧
    ∀ (s : Nat) (e : Int), b.sameExceptOrder (b.siftDown s e cmp) :=
  ⟨(heapify_frame b cmp).trans (sortGo_frame cmp _ _),
   heapify_frame b cmp,
   fun s e => siftDown_frame b s e cmp⟩

/-- Characterisation of `bufferData` from a well-formed ring state (the
state established by `createResources` and preserved by every call): the
request is clamped to `q = min count (remainingVertices / 4)` quads; a
zero-quad call is a no-op; otherwise vertices/indices are generated and the
written regions uploaded, and the cursors advance by `4q`/`6q`, wrapping to
0 exactly when the vertex cursor reaches the capacity. -/
theorem bufferData_spec (eff : QuadEffect) (batch : QuadBatch)
    (offset count Cq q : Nat)
    (hvc : eff.vertexCapacity = 4 * Cq) (hic : eff.indexCapacity = 6 * Cq)
    (hlt : eff.vertexOffset < eff.vertexCapacity)
    (hdvd : 4 ∣ eff.vertexOffset)
    (hio : eff.indexOffset = 6 * (eff.vertexOffset / 4))
    (hq : q = min count ((eff.vertexCapacity - eff.vertexOffset) / 4)) :
    eff.bufferData batch offset count =
      if q = 0 then (0, eff, [])
      else
        (q,
         { eff with
            vertexOffset :=
              if eff.vertexOffset + 4 * q = eff.vertexCapacity then 0
              else eff.vertexOffset + 4 * q
            indexOffset :=
              if eff.vertexOffset + 4 * q = eff.vertexCapacity then 0
              else eff.indexOffset + 6 * q },
         [GLOp.genVertices eff.vertexOffset offset q,
          GLOp.genIndices eff.indexOffset eff.vertexOffset q,
          GLOp.uploadVB (eff.vertexOffset * eff.vertexSize)
            (q * eff.vertexSize * 4),
          GLOp.uploadIB (eff.indexOffset * eff.indexSize) (q * 6)]) := by
  obtain ⟨m, hm⟩ := hdvd
  have hmCq : m < Cq := by omega
  have hdiv : (eff.vertexCapacity - eff.vertexOffset) / 4 = Cq - m := by
    rw [hvc, hm, (by omega : 4 * Cq - 4 * m = 4 * (Cq - m)),
      Nat.mul_div_cancel_left _ (by norm_num)]
  have hioval : eff.indexOffset = 6 * m := by
    rw [hio, hm, Nat.mul_div_cancel_left _ (by norm_num)]
  simp only [QuadEffect.bufferData]
  by_cases hA : eff.vertexCapacity < eff.vertexOffset + count * 4
  · -- clamped pass: q = Cq - m
    have hqv : q = Cq - m := by
      rw [hq, hdiv]; omega
    have hcl : (eff.vertexCapacity - eff.vertexOffset) / 4 = q := by
      rw [hdiv, hqv]
    simp only [if_pos hA, hcl]
    have hq0 : ¬ q = 0 := by omega
    simp only [if_neg hq0]
    have hwrap : eff.vertexOffset + q * 4 = eff.vertexCapacity := by
      rw [hvc, hm, hqv]; omega
    have h4q : eff.vertexOffset + 4 * q = eff.vertexCapacity := by omega
    simp [hwrap, h4q]
  · -- unclamped pass: q = count
    have hqv : q = count := by
      rw [hq, hdiv]; omega
    have hcnt : count * 4 / 4 = q := by omega
    simp only [if_neg hA, hcnt]
    by_cases hq0 : q = 0
    · simp [hq0]
    · simp only [if_neg hq0]
      by_cases hw : eff.vertexCapacity = eff.vertexOffset + q * 4
      · have h4q : eff.vertexOffset + 4 * q = eff.vertexCapacity := by omega
        simp [hw, h4q, hqv, Nat.mul_comm]
      · have h4q : ¬ (eff.vertexOffset + 4 * q = eff.vertexCapacity) := by omega
        rw [hqv] at hw h4q
        have h4q2 : ¬ (eff.vertexOffset + count * 4 = eff.vertexCapacity) := by
          omega
        simp [hw, h4q, h4q2, hqv, Nat.mul_comm]

/-- C3: for every call `bufferData(batch, offset, count, generateVertices)`
made from a state with `0 <= vertexOffset < vertexCapacity`, `vertexOffset`
a multiple of 4 and `indexOffset = 6 * (vertexOffset / 4)` (with the
capacities allocated for `Cq` quads as `createResources` does), the call
returns `q = min(count, (vertexCapacity - vertexOffset) / 4)`; if `q = 0`
it changes nothing and uploads nothing; otherwise `vertexOffset` advances by
`4q` and `indexOffset` by `6q`, both wrapping to 0 exactly when the vertex
cursor reaches `vertexCapacity`, and the post-state satisfies the same
invariant (a cursor is never left equal to the capacity). -/
theorem c3_bufferData_cursor_invariant (eff : QuadEffect) (batch : QuadBatch)
    (offset count Cq q : Nat)
    (hvc : eff.vertexCapacity = 4 * Cq) (hic : eff.indexCapacity = 6 * Cq)
    (hlt : eff.vertexOffset < eff.vertexCapacity)
    (hdvd : 4 ∣ eff.vertexOffset)
    (hio : eff.indexOffset = 6 * (eff.vertexOffset / 4))
    (hq : q = min count ((eff.vertexCapacity - eff.vertexOffset) / 4)) :
    (eff.bufferData batch offset count).1 = q ∧
    (q = 0 → (eff.bufferData batch offset count).2.1 = eff ∧
      (eff.bufferData batch offset count).2.2 = []) ∧
    (0 < q →
      (eff.bufferData batch offset count).2.1.vertexOffset =
        (if eff.vertexOffset + 4 * q = eff.vertexCapacity then 0
         else eff.vertexOffset + 4 * q) ∧
      (eff.bufferData batch offset count).2.1.indexOffset =
        (if eff.vertexOffset + 4 * q = eff.vertexCapacity then 0
         else eff.indexOffset + 6 * q) ∧
      (eff.bufferData batch offset count).2.2 =
        [GLOp.genVertices eff.vertexOffset offset q,
         GLOp.genIndices eff.indexOffset eff.vertexOffset q,
         GLOp.uploadVB (eff.vertexOffset * eff.vertexSize)
           (q * eff.vertexSize * 4),
         GLOp.uploadIB (eff.indexOffset * eff.indexSize) (q * 6)] ∧
      (eff.bufferData batch offset count).2.1.vertexOffset <
        eff.vertexCapacity ∧
      4 ∣ (eff.bufferData batch offset count).2.1.vertexOffset ∧
      (eff.bufferData batch offset count).2.1.indexOffset =
        6 * ((eff.bufferData batch offset count).2.1.vertexOffset / 4)) := by
  obtain ⟨m, hm⟩ := hdvd
  have hioval : eff.indexOffset = 6 * m := by
    rw [hio, hm, Nat.mul_div_cancel_left _ (by norm_num)]
  have hqle : q ≤ Cq - m := by
    rw [hq, hvc, hm, (by omega : 4 * Cq - 4 * m = 4 * (Cq - m)),
      Nat.mul_div_cancel_left _ (by norm_num)]
    omega
  rw [bufferData_spec eff batch offset count Cq q hvc hic hlt ⟨m, hm⟩ hio hq]
  by_cases hq0 : q = 0
  · simp [hq0]
  · rw [if_neg hq0]
    refine ⟨rfl, fun h => absurd h hq0, fun _ => ⟨rfl, rfl, rfl, ?_, ?_, ?_⟩⟩
    · by_cases hw : eff.vertexOffset + 4 * q = eff.vertexCapacity
      · simp only [if_pos hw]; omega
      · simp only [if_neg hw]; omega
    · by_cases hw : eff.vertexOffset + 4 * q = eff.vertexCapacity
      · simp only [if_pos hw]; omega
      · simp only [if_neg hw]; omega
    · by_cases hw : eff.vertexOffset + 4 * q = eff.vertexCapacity
      · simp only [if_pos hw]
      · simp only [if_neg hw]
        have h1 : (4 * (m + q)) / 4 = m + q :=
          Nat.mul_div_cancel_left _ (by norm_num)
        have h2 : eff.vertexOffset + 4 * q = 4 * (m + q) := by omega
        rw [h2, h1]
        omega

/-- Witness for `c3_bufferData_cursor_invariant`: a ring of 4 quads with
cursors at 0 and a request of 7 quads buffers exactly 4 and wraps both
cursors back to 0. -/
theorem c3_bufferData_cursor_invariant_witness :
    ((QuadEffect.create 32 4).bufferData (QuadBatch.create 1) 0 7).1 = 4 ∧
    ((QuadEffect.create 32 4).bufferData (QuadBatch.create 1) 0 7).2.1.vertexOffset = 0 ∧
    ((QuadEffect.create 32 4).bufferData (QuadBatch.create 1) 0 7).2.1.indexOffset = 0 := by
  have h := c3_bufferData_cursor_invariant (QuadEffect.create 32 4)
    (QuadBatch.create 1) 0 7 4 4 rfl rfl (by decide) ⟨0, rfl⟩ rfl (by decide)
  refine ⟨h.1, ?_, ?_⟩
  · have h2 := (h.2.2 (by decide)).1
    simpa using h2
  · have h2 := (h.2.2 (by decide)).2.1
    simpa using h2

/-- `drawRegion` returns the effect with only `currentState` replaced, so
all cursor and capacity fields pass through unchanged. -/
theorem drawRegion_cursors (eff : QuadEffect) (batch : QuadBatch)
    (offset count baseIndex : Nat) :
    ((eff.drawRegion batch offset count baseIndex).1.vertexOffset
        = eff.vertexOffset) ∧
    ((eff.drawRegion batch offset count baseIndex).1.indexOffset
        = eff.indexOffset) ∧
    ((eff.drawRegion batch offset count baseIndex).1.vertexCapacity
        = eff.vertexCapacity) ∧
    ((eff.drawRegion batch offset count baseIndex).1.indexCapacity
        = eff.indexCapacity) :=
  ⟨rfl, rfl, rfl, rfl⟩

/-- The `drawBatch` loop exits immediately when no quads remain. -/
theorem drawBatchGo_zero (batch : QuadBatch) (fuel : Nat) (eff : QuadEffect)
    (quadIndex baseIndex : Nat) :
    QuadEffect.drawBatchGo batch fuel eff quadIndex 0 baseIndex =
      (eff, [], [], 0) := by
  cases fuel <;> rfl

/-- Under the ring invariant, the buffering passes and the remaining count
of `drawBatchGo` follow the pure simulation `ringPasses`. -/
theorem drawBatchGo_passes (batch : QuadBatch) (Cq : Nat) :
    ∀ (fuel : Nat) (eff : QuadEffect) (quadIndex count baseIndex m : Nat),
    eff.vertexCapacity = 4 * Cq → eff.indexCapacity = 6 * Cq →
    eff.vertexOffset = 4 * m → m < Cq →
    eff.indexOffset = 6 * m →
    (QuadEffect.drawBatchGo batch fuel eff quadIndex count baseIndex).2.2.1 =
      (ringPasses Cq fuel m count).1 ∧
    (QuadEffect.drawBatchGo batch fuel eff quadIndex count baseIndex).2.2.2 =
      (ringPasses Cq fuel m count).2
  | 0, eff, quadIndex, count, baseIndex, m, hvc, hic, hm, hmlt, him => by
    cases count <;> exact ⟨rfl, rfl⟩
  | fuel + 1, eff, quadIndex, 0, baseIndex, m, hvc, hic, hm, hmlt, him =>
    ⟨rfl, rfl⟩
  | fuel + 1, eff, quadIndex, count + 1, baseIndex, m, hvc, hic, hm, hmlt, him => by
    have hq : min (count + 1) (Cq - m)
        = min (count + 1) ((eff.vertexCapacity - eff.vertexOffset) / 4) := by
      rw [hvc, hm]; omega
    have hbd := bufferData_spec eff batch quadIndex (count + 1) Cq
      (min (count + 1) (Cq - m)) hvc hic (by omega) ⟨m, hm⟩ (by rw [him, hm]; omega)
      hq
    have hq0 : ¬ (min (count + 1) (Cq - m) = 0) := by omega
    rw [if_neg hq0] at hbd
    rw [hm, him, hvc] at hbd
    have hcond : (4 * m + 4 * min (count + 1) (Cq - m) = 4 * Cq)
        = (m + min (count + 1) (Cq - m) = Cq) := by
      simp only [eq_iff_iff]
      omega
    simp only [hcond] at hbd
    rw [QuadEffect.drawBatchGo, hbd]
    simp only [ringPasses]
    by_cases hw : m + min (count + 1) (Cq - m) = Cq
    · simp only [if_pos hw]
      have IH := drawBatchGo_passes batch Cq fuel
        (({ currentState := eff.currentState, vertexCapacity := 4 * Cq,
            vertexOffset := 0, indexCapacity := eff.indexCapacity,
            indexOffset := 0, vertexSize := eff.vertexSize,
            indexSize := eff.indexSize } : QuadEffect).drawRegion
              batch quadIndex (min (count + 1) (Cq - m)) baseIndex).1
        (quadIndex + min (count + 1) (Cq - m))
        (count + 1 - min (count + 1) (Cq - m)) 0 0 rfl hic rfl (by omega) rfl
      exact ⟨congrArg (List.cons _) IH.1, IH.2⟩
    · simp only [if_neg hw]
      have IH := drawBatchGo_passes batch Cq fuel
        (({ currentState := eff.currentState, vertexCapacity := 4 * Cq,
            vertexOffset := 4 * m + 4 * min (count + 1) (Cq - m),
            indexCapacity := eff.indexCapacity,
            indexOffset := 6 * m + 6 * min (count + 1) (Cq - m),
            vertexSize := eff.vertexSize,
            indexSize := eff.indexSize } : QuadEffect).drawRegion
              batch quadIndex (min (count + 1) (Cq - m)) baseIndex).1
        (quadIndex + min (count + 1) (Cq - m))
        (count + 1 - min (count + 1) (Cq - m))
        (6 * m + 6 * min (count + 1) (Cq - m))
        (m + min (count + 1) (Cq - m))
        rfl hic
        (by show (4 * m + 4 * min (count + 1) (Cq - m) : Nat) = _; omega)
        (by omega)
        (by show (6 * m + 6 * min (count + 1) (Cq - m) : Nat) = _; omega)
      have h48 : 4 * m + 4 * min (count + 1) (Cq - m)
          = 4 * (m + min (count + 1) (Cq - m)) := by omega
      rw [h48] at IH ⊢
      exact ⟨congrArg (List.cons _) IH.1, IH.2⟩

theorem ringPasses_zero (Cq fuel m : Nat) :
    ringPasses Cq fuel m 0 = ([], 0) := by
  cases fuel <;> rfl

/-- C4: for every ring capacity `C >= 1` (in quads) and every batch of
exactly `2C+1` quads with uniform per-quad state, starting with both ring
cursors at 0, `drawBatch` terminates (0 quads remain) and performs exactly
3 buffering passes of `C`, `C` and `1` quads, the first two passes each
exactly filling the ring and wrapping the cursors back to 0. -/
theorem c4_ring_wrap (C : Nat) (hC : 1 ≤ C) (s : JVal)
    (eff : QuadEffect) (batch : QuadBatch)
    (hvc : eff.vertexCapacity = 4 * C) (hic : eff.indexCapacity = 6 * C)
    (hv0 : eff.vertexOffset = 0) (hi0 : eff.indexOffset = 0)
    (hn : batch.quadCount = 2 * C + 1)
    (hs : ∀ i, i < batch.quadCount → batch.state.getD i JVal.undef = s) :
    ((eff.drawBatch batch).2.2.1.map Prod.fst = [C, C, 1]) ∧
    (((eff.drawBatch batch).2.2.1.map Prod.snd).take 2 = [0, 0]) ∧
    ((eff.drawBatch batch).2.2.2 = 0) := by
  obtain ⟨C', rfl⟩ : ∃ C', C = C' + 1 := ⟨C - 1, by omega⟩
  have h := drawBatchGo_passes batch (C' + 1) batch.quadCount eff 0
    batch.quadCount eff.indexOffset 0 hvc hic (by rw [hv0]) (by omega)
    (by rw [hi0])
  have ev : ∃ v3, ringPasses (C' + 1) (2 * (C' + 1) + 1) 0 (2 * (C' + 1) + 1)
      = ([(C' + 1, 0), (C' + 1, 0), (1, v3)], 0) := by
    simp only [ringPasses]
    rw [(by omega : min (2 * (C' + 1) + 1) (C' + 1 - 0) = C' + 1),
      if_pos (by omega : 0 + (C' + 1) = C' + 1),
      (by omega : 2 * (C' + 1) + 1 - (C' + 1) = C' + 1 + 1),
      (by omega : 2 * (C' + 1) = 2 * C' + 1 + 1)]
    simp only [ringPasses]
    rw [(by omega : min (C' + 1 + 1) (C' + 1 - 0) = C' + 1),
      if_pos (by omega : 0 + (C' + 1) = C' + 1),
      (by omega : C' + 1 + 1 - (C' + 1) = 0 + 1)]
    simp only [ringPasses]
    rw [(by omega : min (0 + 1) (C' + 1 - 0) = 1),
      (by omega : 0 + 1 - 1 = 0), ringPasses_zero]
    exact ⟨_, rfl⟩
  obtain ⟨v3, ev⟩ := ev
  rw [hn, hi0] at h
  have h1 := h.1
  have h2 := h.2
  rw [ev] at h1 h2
  simp only [QuadEffect.drawBatch]
  rw [hn, hi0, h1, h2]
  simp

/-- Witness for `c4_ring_wrap` at `C = 2` with a concrete batch of 5 quads
of uniform state `tok 7`. -/
theorem c4_ring_wrap_witness :
    ((c4Eff.drawBatch c4Batch).2.2.1.map Prod.fst = [2, 2, 1]) ∧
    (((c4Eff.drawBatch c4Batch).2.2.1.map Prod.snd).take 2 = [0, 0]) ∧
    ((c4Eff.drawBatch c4Batch).2.2.2 = 0) :=
  c4_ring_wrap 2 (by decide) (JVal.tok 7) c4Eff c4Batch rfl rfl rfl rfl rfl
    (by decide)

/-- Draw calls emitted by the `drawRegion` loop when the current run is
non-empty (`index < i`): one per state change along the remaining tokens,
counted against the applied state `s0`. -/
theorem drawRegionLoop_draws :
    ∀ (toks : List JVal) (i index base : Nat) (s0 : JVal), index < i →
    (drawRegionLoop toks i index base s0).ops.countP GLOp.isDraw
      = tokenChanges s0 toks
  | [], _, _, _, _, _ => rfl
  | t :: rest, i, index, base, s0, h => by
    rw [drawRegionLoop, tokenChanges]
    by_cases ht : t ≠ s0
    · rw [if_pos ht, if_pos h]
      simp only [List.countP_cons, GLOp.isDraw]
      rw [drawRegionLoop_draws rest (i + 1) i _ t (by omega)]
      simp [ht, Nat.add_comm]
    · rw [if_neg ht]
      rw [drawRegionLoop_draws rest (i + 1) index base s0 (by omega)]
      simp only [ne_eq, Decidable.not_not] at ht
      simp [ht]

/-- Draw calls emitted by the `drawRegion` loop from its entry state
(`index = i`, empty current run): the first token never pays a draw call,
whether or not it changes state. -/
theorem drawRegionLoop_draws_start (t : JVal) (rest : List JVal)
    (i base : Nat) (s0 : JVal) :
    (drawRegionLoop (t :: rest) i i base s0).ops.countP GLOp.isDraw
      = tokenChanges t rest := by
  rw [drawRegionLoop]
  by_cases ht : t ≠ s0
  · rw [if_pos ht, if_neg (by omega : ¬ i < i)]
    simp only [List.countP_cons, GLOp.isDraw]
    rw [drawRegionLoop_draws rest (i + 1) i base t (by omega)]
    simp
  · rw [if_neg ht]
    rw [drawRegionLoop_draws rest (i + 1) i base s0 (by omega)]
    simp only [ne_eq, Decidable.not_not] at ht
    rw [ht]

/-- Total indexed draws of one `drawRegion` call on `count >= 1` quads:
one per state change among the examined tokens, plus the final draw. -/
theorem drawRegion_draws (eff : QuadEffect) (batch : QuadBatch)
    (offset count baseIndex : Nat) (hc : 1 ≤ count) :
    ((eff.drawRegion batch offset count baseIndex).2).countP GLOp.isDraw
      = tokenChanges (batch.tokAt 0)
          ((List.range' 1 (count - 1)).map (QuadBatch.tokAt batch)) + 1 := by
  obtain ⟨n, rfl⟩ : ∃ n, count = n + 1 := ⟨count - 1, by omega⟩
  rw [QuadEffect.drawRegion]
  simp only [List.countP_append]
  have hrange : List.range (n + 1) = 0 :: List.range' 1 n := by
    rw [List.range_eq_range', List.range'_succ]
  rw [hrange]
  simp only [List.map_cons]
  rw [drawRegionLoop_draws_start]
  simp [GLOp.isDraw]

/-- `tokenChanges` along tokens indexed by a contiguous range counts the
positions whose token differs from the predecessor's. -/
theorem tokenChanges_range (f : Nat → JVal) :
    ∀ (m k : Nat),
    tokenChanges (f k) ((List.range' (k + 1) m).map f)
      = (List.range' k m).countP (fun i => decide (f (i + 1) ≠ f i))
  | 0, k => rfl
  | m + 1, k => by
    rw [List.range'_succ, List.range'_succ]
    simp only [List.map_cons, tokenChanges, List.countP_cons]
    rw [tokenChanges_range f m (k + 1)]
    by_cases h : f (k + 1) ≠ f k
    · simp [h, Nat.add_comm]
    · simp [h]

/-- C1: for every batch of `N >= 1` quads that fits in one buffering pass
(cursors at 0, `N <= Cq` the ring capacity in quads) after `makeCurrent`
has reset `currentState` to `null` (so the first quad's token differs from
it), `drawBatch` issues exactly `K + 1` indexed draw calls, where `K` is
the number of positions `i` in `[1, N)` with
`state[order[i]] != state[order[i-1]]` — independent of `N`. -/
theorem c1_draw_call_coalescing (Cq N : Nat) (eff : QuadEffect) (batch : QuadBatch)
    (hvc : eff.vertexCapacity = 4 * Cq) (hic : eff.indexCapacity = 6 * Cq)
    (hv0 : eff.vertexOffset = 0) (hi0 : eff.indexOffset = 0)
    (hcs : eff.currentState = JVal.null)
    (hn : batch.quadCount = N) (hN1 : 1 ≤ N) (hNC : N ≤ Cq)
    (hfirst : batch.tokAt 0 ≠ JVal.null) :
    (eff.drawBatch batch).2.1.countP GLOp.isDraw
      = batch.stateChangeCount N + 1 := by
  obtain ⟨N', rfl⟩ : ∃ N', N = N' + 1 := ⟨N - 1, by omega⟩
  have hbd := bufferData_spec eff batch 0 (N' + 1) Cq (N' + 1) hvc hic
    (by omega) ⟨0, by rw [hv0]⟩ (by simp [hi0, hv0])
    (by rw [hvc, hv0]; omega)
  rw [if_neg (by omega)] at hbd
  simp only [QuadEffect.drawBatch]
  rw [hn, hi0]
  simp only [QuadEffect.drawBatchGo]
  rw [hbd]
  simp only []
  rw [(by omega : N' + 1 - (N' + 1) = 0), drawBatchGo_zero]
  simp only [List.countP_append, List.append_nil]
  rw [drawRegion_draws _ batch 0 (N' + 1) 0 (by omega)]
  rw [(by omega : N' + 1 - 1 = N')]
  have hbridge := tokenChanges_range (QuadBatch.tokAt batch) N' 0
  norm_num at hbridge
  rw [hbridge]
  rw [QuadBatch.stateChangeCount, (by omega : N' + 1 - 1 = N'),
    List.range_eq_range']
  simp [GLOp.isDraw]

/-- Witness for `c1_draw_call_coalescing`: five quads with sorted-order
states `tok 1, tok 1, tok 2, tok 2, tok 3` through a capacity-8 ring. -/
theorem c1_draw_call_coalescing_witness :
    (c1Eff.drawBatch c1Batch).2.1.countP GLOp.isDraw
      = c1Batch.stateChangeCount 5 + 1 :=
  c1_draw_call_coalescing 8 5 c1Eff c1Batch rfl rfl rfl rfl rfl rfl
    (by decide) (by decide) (by decide)

/-- C10, counterexample: two batches identical in every attribute array and
in `order` but with depths 1 vs 2 make `QuadVertex.ptcg` (with the same
view, buffer offset, batch offset and quad count) write DIFFERENT vertex
data: the generic-attribute stream stores `1 / depth` per vertex (source
line 113 and 138), so the claim that the generated data is identical is
false. -/
theorem c10_depth_reaches_vertex_data :
    c10Base.order = c10Other.order ∧
    c10Base.sourceRects = c10Other.sourceRects ∧
    c10Base.targetRects = c10Other.targetRects ∧
    c10Base.originPoint = c10Other.originPoint ∧
    c10Base.scaleFactor = c10Other.scaleFactor ∧
    c10Base.tintColor = c10Other.tintColor ∧
    c10Base.orientation = c10Other.orientation ∧
    c10Base.state = c10Other.state ∧
    c10Base.depth ≠ c10Other.depth ∧
    QuadVertex.ptcg (fun _ => 0) (fun _ => 1) QuadVertex.PTCGView 0 c10Base 0 1
      ≠ QuadVertex.ptcg (fun _ => 0) (fun _ => 1) QuadVertex.PTCGView 0
          c10Other 0 1 := by
  refine ⟨rfl, rfl, rfl, rfl, rfl, rfl, rfl, rfl, by norm_num [c10Base, c10Other], ?_⟩
  intro h
  have h2 := congrArg (fun p => (p.2.2.headD ⟨0, 0, 0, 0⟩).d) h
  simp only [QuadVertex.ptcg, QuadVertex.ptcgGo, QuadVertex.ptcgQuad,
    c10Base, c10Other, List.range] at h2
  norm_num [List.range.loop] at h2

theorem ptcgQuad_depth_only (jsin jscos : Rat → Rat) (view : BufferView)
    (b1 b2 : QuadBatch) (h : b1.sameExceptDepth b2) (i aip aic aia : Nat) :
    (QuadVertex.ptcgQuad jsin jscos view b1 i aip aic aia).1
      = (QuadVertex.ptcgQuad jsin jscos view b2 i aip aic aia).1 ∧
    (QuadVertex.ptcgQuad jsin jscos view b1 i aip aic aia).2.1
      = (QuadVertex.ptcgQuad jsin jscos view b2 i aip aic aia).2.1 ∧
    (QuadVertex.ptcgQuad jsin jscos view b1 i aip aic aia).2.2.map
        (fun w => (w.off, w.g0, w.g1))
      = (QuadVertex.ptcgQuad jsin jscos view b2 i aip aic aia).2.2.map
        (fun w => (w.off, w.g0, w.g1)) := by
  obtain ⟨ho, hsr, htr, hop, hsf, htc, hor, hst, hqc, hcap⟩ := h
  refine ⟨?_, ?_, ?_⟩ <;>
    simp [QuadVertex.ptcgQuad, ho, hsr, htr, hop, hsf, htc, hor,
      List.map_map, Function.comp]

theorem ptcgGo_depth_only (jsin jscos : Rat → Rat) (view : BufferView)
    (b1 b2 : QuadBatch) (h : b1.sameExceptDepth b2) :
    ∀ (n i aip aic aia : Nat),
    (QuadVertex.ptcgGo jsin jscos view b1 n i aip aic aia).1
      = (QuadVertex.ptcgGo jsin jscos view b2 n i aip aic aia).1 ∧
    (QuadVertex.ptcgGo jsin jscos view b1 n i aip aic aia).2.1
      = (QuadVertex.ptcgGo jsin jscos view b2 n i aip aic aia).2.1 ∧
    (QuadVertex.ptcgGo jsin jscos view b1 n i aip aic aia).2.2.map
        (fun w => (w.off, w.g0, w.g1))
      = (QuadVertex.ptcgGo jsin jscos view b2 n i aip aic aia).2.2.map
        (fun w => (w.off, w.g0, w.g1))
  | 0, i, aip, aic, aia => ⟨rfl, rfl, rfl⟩
  | n + 1, i, aip, aic, aia => by
    have hq := ptcgQuad_depth_only jsin jscos view b1 b2 h i aip aic aia
    have hrest := ptcgGo_depth_only jsin jscos view b1 b2 h n (i + 1)
      (aip + 4 * view.asp) (aic + 4 * view.asc) (aia + 4 * view.asa)
    simp only [QuadVertex.ptcgGo, List.map_append]
    exact ⟨by rw [hq.1, hrest.1], by rw [hq.2.1, hrest.2.1],
      by rw [hq.2.2, hrest.2.2]⟩

/-- C10, amended: for batches identical except in `depth`, `ptcg` writes
identical position/texture and color streams, and the generic-attribute
stream differs at most in its first component (the offsets and the two
generic values `g0`, `g1` coincide); i.e. depth influences only the
per-vertex `1 / depth` value it is explicitly packed into, never the
geometry, texture coordinates or colors. -/
theorem c10_depth_only_ordering (jsin jscos : Rat → Rat) (view : BufferView)
    (bufferOffset : Nat) (b1 b2 : QuadBatch) (batchOffset quadCount : Nat)
    (h : b1.sameExceptDepth b2) :
    (QuadVertex.ptcg jsin jscos view bufferOffset b1 batchOffset quadCount).1
      = (QuadVertex.ptcg jsin jscos view bufferOffset b2 batchOffset
          quadCount).1 ∧
    (QuadVertex.ptcg jsin jscos view bufferOffset b1 batchOffset quadCount).2.1
      = (QuadVertex.ptcg jsin jscos view bufferOffset b2 batchOffset
          quadCount).2.1 ∧
    (QuadVertex.ptcg jsin jscos view bufferOffset b1 batchOffset
        quadCount).2.2.map (fun w => (w.off, w.g0, w.g1))
      = (QuadVertex.ptcg jsin jscos view bufferOffset b2 batchOffset
          quadCount).2.2.map (fun w => (w.off, w.g0, w.g1)) :=
  ptcgGo_depth_only jsin jscos view b1 b2 h quadCount batchOffset _ _ _

/-- Witness for `c10_depth_only_ordering` at the concrete batches differing
only in depth. -/
theorem c10_depth_only_ordering_witness :
    (QuadVertex.ptcg (fun _ => 0) (fun _ => 1) QuadVertex.PTCGView 0 c10Base
        0 1).1
      = (QuadVertex.ptcg (fun _ => 0) (fun _ => 1) QuadVertex.PTCGView 0
          c10Other 0 1).1 ∧
    (QuadVertex.ptcg (fun _ => 0) (fun _ => 1) QuadVertex.PTCGView 0 c10Base
        0 1).2.1
      = (QuadVertex.ptcg (fun _ => 0) (fun _ => 1) QuadVertex.PTCGView 0
          c10Other 0 1).2.1 ∧
    (QuadVertex.ptcg (fun _ => 0) (fun _ => 1) QuadVertex.PTCGView 0 c10Base
        0 1).2.2.map (fun w => (w.off, w.g0, w.g1))
      = (QuadVertex.ptcg (fun _ => 0) (fun _ => 1) QuadVertex.PTCGView 0
          c10Other 0 1).2.2.map (fun w => (w.off, w.g0, w.g1)) :=
  c10_depth_only_ordering (fun _ => 0) (fun _ => 1) QuadVertex.PTCGView 0
    c10Base c10Other 0 1 ⟨rfl, rfl, rfl, rfl, rfl, rfl, rfl, rfl, rfl, rfl⟩

/-- Moving the `m`-th element of `t` to the front while writing `a` into
slot `m` permutes `a :: t`. -/
theorem getD_cons_set_perm (a : Nat) :
    ∀ (t : List Nat) (m : Nat), m < t.length →
    List.Perm (t.getD m 0 :: t.set m a) (a :: t)
  | [], m, h => absurd h (by simp)
  | b :: t, 0, _ => List.Perm.swap a b t
  | b :: t, m + 1, h => by
    show List.Perm (t.getD m 0 :: b :: t.set m a) (a :: b :: t)
    exact ((List.Perm.swap b (t.getD m 0) (t.set m a)).trans
      ((getD_cons_set_perm a t m (by simpa using h)).cons b)).trans
      (List.Perm.swap a b t)

/-- The two-store swap idiom of `siftDown`/`sort` (`temp = a[j]; a[i] = a[j]
...`) permutes the list when both indices are in bounds. -/
theorem set_set_swap_perm :
    ∀ (l : List Nat) (i j : Nat), i < l.length → j < l.length →
    List.Perm ((l.set i (l.getD j 0)).set j (l.getD i 0)) l
  | [], i, _, hi, _ => absurd hi (by simp)
  | a :: t, 0, 0, _, _ => by simp
  | a :: t, 0, m + 1, _, hj => by
    show List.Perm (t.getD m 0 :: t.set m a) (a :: t)
    exact getD_cons_set_perm a t m (by simpa using hj)
  | a :: t, k + 1, 0, hi, _ => by
    show List.Perm (t.getD k 0 :: t.set k a) (a :: t)
    exact getD_cons_set_perm a t k (by simpa using hi)
  | a :: t, k + 1, m + 1, hi, hj => by
    show List.Perm (a :: (t.set k (t.getD m 0)).set m (t.getD k 0)) (a :: t)
    exact (set_set_swap_perm t k m (by simpa using hi)
      (by simpa using hj)).cons a

/-- Every intermediate state of the `siftDown` loop permutes the `order`
array (whole-array permutation) and leaves every position beyond the heap
range `e` unchanged, for ANY comparator and any fuel. -/
theorem siftDownFuel_order_perm (cmp : QuadBatch → Nat → Nat → Int) (e : Int) :
    ∀ (fuel root : Nat) (b : QuadBatch), e < (b.order.length : Int) →
    List.Perm (QuadBatch.siftDownFuel cmp e fuel root b).order b.order ∧
    (∀ n : Nat, e < (n : Int) →
      (QuadBatch.siftDownFuel cmp e fuel root b).order.drop n
        = b.order.drop n)
  | 0, root, b, hlen => ⟨List.Perm.refl _, fun _ _ => rfl⟩
  | fuel + 1, root, b, hlen => by
    simp only [QuadBatch.siftDownFuel]
    split
    case isFalse h1 => exact ⟨List.Perm.refl _, fun _ _ => rfl⟩
    case isTrue h1 =>
    have hroot : root < b.order.length := by omega
    split
    case isTrue h2 =>
      have hchild : 2 * root + 1 < b.order.length := by omega
      split
      case isFalse h3 => exact ⟨List.Perm.refl _, fun _ _ => rfl⟩
      case isTrue h3 =>
        have hswap := set_set_swap_perm b.order (2 * root + 1) root hchild hroot
        have hlen2 : e < (((b.order.set (2 * root + 1)
            (b.order.getD root 0)).set root
            (b.order.getD (2 * root + 1) 0)).length : Int) := by
          simpa using hlen
        have IH := siftDownFuel_order_perm cmp e fuel (2 * root + 1)
          { b with
            order :=
              ((b.order.set (2 * root + 1) (b.order.getD root 0)).set root
                (b.order.getD (2 * root + 1) 0)) } hlen2
        refine ⟨IH.1.trans hswap, fun n hn => ?_⟩
        rw [IH.2 n hn]
        show ((b.order.set (2 * root + 1) (b.order.getD root 0)).set root
          (b.order.getD (2 * root + 1) 0)).drop n = b.order.drop n
        rw [List.drop_set, List.drop_set, if_pos (by omega), if_pos (by omega)]
    case isFalse h2 =>
      have hchild : 2 * root < b.order.length := by omega
      split
      case isFalse h3 => exact ⟨List.Perm.refl _, fun _ _ => rfl⟩
      case isTrue h3 =>
        have hswap := set_set_swap_perm b.order (2 * root) root hchild hroot
        have hlen2 : e < (((b.order.set (2 * root)
            (b.order.getD root 0)).set root
            (b.order.getD (2 * root) 0)).length : Int) := by
          simpa using hlen
        have IH := siftDownFuel_order_perm cmp e fuel (2 * root)
          { b with
            order :=
              ((b.order.set (2 * root) (b.order.getD root 0)).set root
                (b.order.getD (2 * root) 0)) } hlen2
        refine ⟨IH.1.trans hswap, fun n hn => ?_⟩
        rw [IH.2 n hn]
        show ((b.order.set (2 * root) (b.order.getD root 0)).set root
          (b.order.getD (2 * root) 0)).drop n = b.order.drop n
        rw [List.drop_set, List.drop_set, if_pos (by omega), if_pos (by omega)]

theorem siftDown_order_perm (b : QuadBatch) (s : Nat) (e : Int)
    (cmp : QuadBatch → Nat → Nat → Int) (hlen : e < (b.order.length : Int)) :
    List.Perm (b.siftDown s e cmp).order b.order ∧
    (∀ n : Nat, e < (n : Int) →
      (b.siftDown s e cmp).order.drop n = b.order.drop n) :=
  siftDownFuel_order_perm cmp e _ s b hlen

theorem heapifyFrom_order_perm (cmp : QuadBatch → Nat → Nat → Int) (e : Int) :
    ∀ (s : Nat) (b : QuadBatch), e < (b.order.length : Int) →
    List.Perm (QuadBatch.heapifyFrom cmp e s b).order b.order ∧
    (∀ n : Nat, e < (n : Int) →
      (QuadBatch.heapifyFrom cmp e s b).order.drop n = b.order.drop n)
  | 0, b, hlen => siftDown_order_perm b 0 e cmp hlen
  | s + 1, b, hlen => by
    have h1 := siftDown_order_perm b (s + 1) e cmp hlen
    have hlen2 : e < (((b.siftDown (s + 1) e cmp).order.length : Nat) : Int) := by
      rw [h1.1.length_eq]; exact hlen
    have h2 := heapifyFrom_order_perm cmp e s (b.siftDown (s + 1) e cmp) hlen2
    exact ⟨h2.1.trans h1.1, fun n hn => (h2.2 n hn).trans (h1.2 n hn)⟩

theorem heapify_order_perm (b : QuadBatch) (cmp : QuadBatch → Nat → Nat → Int)
    (hlen : (b.quadCount : Int) - 1 < (b.order.length : Int)) :
    List.Perm (b.heapify cmp).order b.order ∧
    (∀ n : Nat, (b.quadCount : Int) - 1 < (n : Int) →
      (b.heapify cmp).order.drop n = b.order.drop n) :=
  heapifyFrom_order_perm cmp _ _ b hlen

theorem sortGo_order_perm (cmp : QuadBatch → Nat → Nat → Int) :
    ∀ (e : Nat) (b : QuadBatch), e < b.order.length →
    List.Perm (QuadBatch.sortGo cmp e b).order b.order ∧
    (∀ n : Nat, e < n →
      (QuadBatch.sortGo cmp e b).order.drop n = b.order.drop n)
  | 0, b, _ => ⟨List.Perm.refl _, fun _ _ => rfl⟩
  | e + 1, b, hlen => by
    have hswap := set_set_swap_perm b.order 0 (e + 1) (by omega) hlen
    have hlen1 : ((e : Int)) <
        ((({ b with
            order :=
              ((b.order.set 0 (b.order.getD (e + 1) 0)).set (e + 1)
                (b.order.getD 0 0)) } : QuadBatch).order.length : Nat) : Int) := by
      simp only [List.length_set]
      omega
    have hsd := siftDown_order_perm
      { b with
        order :=
          ((b.order.set 0 (b.order.getD (e + 1) 0)).set (e + 1)
            (b.order.getD 0 0)) } 0 (e : Int) cmp hlen1
    have hlen2 : e < (QuadBatch.siftDown
        { b with
          order :=
            ((b.order.set 0 (b.order.getD (e + 1) 0)).set (e + 1)
              (b.order.getD 0 0)) } 0 (e : Int) cmp).order.length := by
      rw [hsd.1.length_eq]
      simp only [List.length_set]
      omega
    have hrec := sortGo_order_perm cmp e _ hlen2
    rw [QuadBatch.sortGo]
    refine ⟨(hrec.1.trans hsd.1).trans hswap, fun n hn => ?_⟩
    rw [hrec.2 n (by omega), hsd.2 n (by omega)]
    show ((b.order.set 0 (b.order.getD (e + 1) 0)).set (e + 1)
      (b.order.getD 0 0)).drop n = b.order.drop n
    rw [List.drop_set, List.drop_set, if_pos (by omega), if_pos (by omega)]

theorem sort_order_perm (b : QuadBatch) (cmp : QuadBatch → Nat → Nat → Int)
    (hq : b.quadCount ≤ b.order.length) (hlen : 1 ≤ b.order.length) :
    List.Perm (b.sort cmp).order b.order ∧
    (∀ n : Nat, (b.quadCount : Int) - 1 < (n : Int) →
      (b.sort cmp).order.drop n = b.order.drop n) := by
  have hh := heapify_order_perm b cmp (by omega)
  by_cases hq0 : b.quadCount = 0
  · have hid : b.sort cmp = b.heapify cmp := by
      simp [QuadBatch.sort, hq0, QuadBatch.sortGo]
    rw [hid]
    exact ⟨hh.1, fun n hn => hh.2 n hn⟩
  · have hlen2 : b.quadCount - 1 < (b.heapify cmp).order.length := by
      rw [hh.1.length_eq]; omega
    have hs := sortGo_order_perm cmp (b.quadCount - 1) (b.heapify cmp) hlen2
    exact ⟨(hs.1.trans hh.1), fun n hn =>
      (hs.2 n (by omega)).trans (hh.2 n hn)⟩

/-- The sorted prefix `order[0 .. quadCount)` is a permutation of the
unsorted one (the tail beyond `quadCount` is untouched, so the whole-array
permutation restricts to the prefix). -/
theorem sort_order_take_perm (b : QuadBatch)
    (cmp : QuadBatch → Nat → Nat → Int)
    (hq : b.quadCount ≤ b.order.length) (hlen : 1 ≤ b.order.length) :
    List.Perm ((b.sort cmp).order.take b.quadCount)
      (b.order.take b.quadCount) := by
  have h := sort_order_perm b cmp hq hlen
  have hdrop := h.2 b.quadCount (by omega)
  have hco : ((b.sort cmp).order.take b.quadCount : Multiset Nat)
      + ((b.sort cmp).order.drop b.quadCount : Multiset Nat)
      = (b.order.take b.quadCount : Multiset Nat)
      + (b.order.drop b.quadCount : Multiset Nat) := by
    rw [Multiset.coe_add, Multiset.coe_add, List.take_append_drop,
      List.take_append_drop]
    exact Multiset.coe_eq_coe.mpr h.1
  rw [hdrop] at hco
  have := add_right_cancel hco
  exact Multiset.coe_eq_coe.mp this

/-- `add` extends the in-use prefix of `order` with the new insertion
index. -/
theorem add_order_take (b : QuadBatch) (st : JVal)
    (x y depth originX originY scaleX scaleY orientation : Rat) (color : Nat)
    (sourceX sourceY sourceWidth sourceHeight imageWidth imageHeight : Rat)
    (hcnt : b.quadCount < b.quadCapacity) (hcap : b.quadCapacity ≤ 65536)
    (hlen : b.order.length = b.quadCapacity) :
    (b.add st x y depth originX originY scaleX scaleY orientation color
        sourceX sourceY sourceWidth sourceHeight imageWidth
        imageHeight).1.order.take (b.quadCount + 1)
      = b.order.take b.quadCount ++ [b.quadCount] := by
  show (b.order.set b.quadCount (b.quadCount % 65536)).take (b.quadCount + 1)
    = b.order.take b.quadCount ++ [b.quadCount]
  rw [Nat.mod_eq_of_lt (by omega)]
  rw [List.take_succ, List.set_take]
  rw [List.set_eq_of_length_le (by rw [List.length_take]; omega)]
  rw [List.getElem?_set]
  rw [if_pos rfl, if_pos (by omega)]
  rfl

/-- The frame property of `sort` as a single helper: only `order`
changes. -/
theorem sort_frame (b : QuadBatch) (cmp : QuadBatch → Nat → Nat → Int) :
    b.sameExceptOrder (b.sort cmp) :=
  (heapify_frame b cmp).trans (sortGo_frame cmp _ _)

/-- The permutation invariant is preserved by every valid `add`/`sort`
sequence. -/
theorem applyAll_order_perm :
    ∀ (ops : List BOp) (b : QuadBatch),
    b.order.length = b.quadCapacity → b.quadCount ≤ b.quadCapacity →
    b.quadCapacity ≤ 65536 → 1 ≤ b.quadCapacity →
    List.Perm (b.order.take b.quadCount) (List.range b.quadCount) →
    BOp.okAll b ops = true →
    List.Perm ((BOp.applyAll b ops).order.take (BOp.applyAll b ops).quadCount)
      (List.range (BOp.applyAll b ops).quadCount)
  | [], b, _, _, _, _, hperm, _ => hperm
  | op :: rest, b, hlen, hcnt, hcap, hpos, hperm, hok => by
    rw [BOp.applyAll]
    cases op with
    | addQuad st x y depth originX originY scaleX scaleY orientation color
        sourceX sourceY sourceWidth sourceHeight imageWidth imageHeight =>
      rw [BOp.okAll, Bool.and_eq_true] at hok
      have hlt : b.quadCount < b.quadCapacity := by
        have := hok.1
        simpa using this
      apply applyAll_order_perm rest
      · show (b.order.set b.quadCount (b.quadCount % 65536)).length = _
        rw [List.length_set]; exact hlen
      · show b.quadCount + 1 ≤ b.quadCapacity
        omega
      · exact hcap
      · exact hpos
      · show List.Perm ((b.add st x y depth originX originY scaleX scaleY
          orientation color sourceX sourceY sourceWidth sourceHeight
          imageWidth imageHeight).1.order.take (b.quadCount + 1))
          (List.range (b.quadCount + 1))
        rw [add_order_take b st x y depth originX originY scaleX scaleY
          orientation color sourceX sourceY sourceWidth sourceHeight
          imageWidth imageHeight hlt hcap hlen]
        rw [List.range_succ]
        exact hperm.append (List.Perm.refl [b.quadCount])
      · exact hok.2
    | sortQuads cmp =>
      rw [BOp.okAll, Bool.and_eq_true] at hok
      have hfr := sort_frame b cmp
      obtain ⟨f1, f2, f3, f4, f5, f6, f7, f8, f9, f10⟩ := hfr
      have hsp := sort_order_take_perm b cmp (by omega) (by omega)
      simp only [BOp.apply]
      apply applyAll_order_perm rest
      · rw [(sort_order_perm b cmp (by omega) (by omega)).1.length_eq, f10]
        exact hlen
      · rw [f9, f10]; exact hcnt
      · rw [f10]; exact hcap
      · rw [f10]; exact hpos
      · show List.Perm ((b.sort cmp).order.take (b.sort cmp).quadCount)
          (List.range (b.sort cmp).quadCount)
        rw [f9]
        exact hsp.trans hperm
      · exact hok.2

/-- The shape of a freshly created batch: empty, with all arrays sized by
the (default-adjusted) capacity. -/
theorem create_shape (c : Nat) :
    (QuadBatch.create c).order.length = (QuadBatch.create c).quadCapacity ∧
    (QuadBatch.create c).quadCount = 0 ∧
    (QuadBatch.create c).quadCapacity = (if c = 0 then 2048 else c) := by
  refine ⟨?_, rfl, rfl⟩
  show (List.replicate ((if c = 0 then 2048 else c) * 1) (0 : Nat)).length = _
  rw [List.length_replicate]
  exact Nat.mul_one _

/-- C7: after any sequence of `add` calls (each made with
`quadCount < quadCapacity`) and `sort` calls (with any comparator) starting
from a freshly created batch (capacity at most the declared maximum),
`order[0 .. quadCount)` is a permutation of `{0, ..., quadCount-1}`. -/
theorem c7_order_permutation (capacity : Nat) (hcap : capacity ≤ 65536)
    (ops : List BOp)
    (hok : BOp.okAll (QuadBatch.create capacity) ops = true) :
    List.Perm ((BOp.applyAll (QuadBatch.create capacity) ops).order.take
        (BOp.applyAll (QuadBatch.create capacity) ops).quadCount)
      (List.range (BOp.applyAll (QuadBatch.create capacity) ops).quadCount) := by
  obtain ⟨h1, h2, h3⟩ := create_shape capacity
  apply applyAll_order_perm ops _ h1 _ _ _ _ hok
  · rw [h2]; exact Nat.zero_le _
  · rw [h3]; by_cases h0 : capacity = 0
    · rw [if_pos h0]; omega
    · rw [if_neg h0]; exact hcap
  · rw [h3]; by_cases h0 : capacity = 0
    · rw [if_pos h0]; omega
    · rw [if_neg h0]; omega
  · rw [h2]
    simp

/-- Witness for `c7_order_permutation`: capacity 4, two adds, a
back-to-front sort, then another add. -/
theorem c7_order_permutation_witness :
    List.Perm ((BOp.applyAll (QuadBatch.create 4) c7Ops).order.take
        (BOp.applyAll (QuadBatch.create 4) c7Ops).quadCount)
      (List.range (BOp.applyAll (QuadBatch.create 4) c7Ops).quadCount) :=
  c7_order_permutation 4 (by decide) c7Ops (by decide)

/-- If the comparator reads only `depth` (as both shipped comparators do),
the sift loop on a batch computes exactly the pure mirror on its `order`
array. -/
theorem siftDownFuel_order_eq (cmp : QuadBatch → Nat → Nat → Int)
    (c : Nat → Nat → Int) (d : List Rat)
    (hc : ∀ (b : QuadBatch), b.depth = d → ∀ i j, cmp b i j = c i j)
    (e : Int) :
    ∀ (fuel root : Nat) (b : QuadBatch), b.depth = d →
    (QuadBatch.siftDownFuel cmp e fuel root b).order
      = psiftFuel c e fuel root b.order
  | 0, _, _, _ => rfl
  | fuel + 1, root, b, hd => by
    rw [QuadBatch.siftDownFuel, psiftFuel]
    simp only [hc b hd]
    split
    · split
      · split
        · exact siftDownFuel_order_eq cmp c d hc e fuel _ _ hd
        · rfl
      · split
        · exact siftDownFuel_order_eq cmp c d hc e fuel _ _ hd
        · rfl
    · rfl

theorem siftDown_order_eq (cmp : QuadBatch → Nat → Nat → Int)
    (c : Nat → Nat → Int) (d : List Rat)
    (hc : ∀ (b : QuadBatch), b.depth = d → ∀ i j, cmp b i j = c i j)
    (b : QuadBatch) (s : Nat) (e : Int) (hd : b.depth = d) :
    (b.siftDown s e cmp).order = psift c e s b.order :=
  siftDownFuel_order_eq cmp c d hc e _ s b hd

theorem heapifyFrom_order_eq (cmp : QuadBatch → Nat → Nat → Int)
    (c : Nat → Nat → Int) (d : List Rat)
    (hc : ∀ (b : QuadBatch), b.depth = d → ∀ i j, cmp b i j = c i j)
    (e : Int) :
    ∀ (s : Nat) (b : QuadBatch), b.depth = d →
    (QuadBatch.heapifyFrom cmp e s b).order = pheapFrom c e s b.order
  | 0, b, hd => siftDown_order_eq cmp c d hc b 0 e hd
  | s + 1, b, hd => by
    rw [QuadBatch.heapifyFrom, pheapFrom]
    have hd2 : (b.siftDown (s + 1) e cmp).depth = d := by
      rw [(siftDown_frame b (s + 1) e cmp).2.2.2.2.2.2.1, hd]
    rw [heapifyFrom_order_eq cmp c d hc e s _ hd2,
      siftDown_order_eq cmp c d hc b (s + 1) e hd]

theorem sortGo_order_eq (cmp : QuadBatch → Nat → Nat → Int)
    (c : Nat → Nat → Int) (d : List Rat)
    (hc : ∀ (b : QuadBatch), b.depth = d → ∀ i j, cmp b i j = c i j) :
    ∀ (e : Nat) (b : QuadBatch), b.depth = d →
    (QuadBatch.sortGo cmp e b).order = psortGo c e b.order
  | 0, _, _ => rfl
  | e + 1, b, hd => by
    rw [QuadBatch.sortGo, psortGo]
    have hd1 : ({ b with
        order := ((b.order.set 0 (b.order.getD (e + 1) 0)).set (e + 1)
          (b.order.getD 0 0)) } : QuadBatch).depth = d := hd
    have hd2 : (QuadBatch.siftDown { b with
        order := ((b.order.set 0 (b.order.getD (e + 1) 0)).set (e + 1)
          (b.order.getD 0 0)) } 0 (e : Int) cmp).depth = d := by
      rw [(siftDown_frame _ 0 (e : Int) cmp).2.2.2.2.2.2.1]
      exact hd1
    rw [sortGo_order_eq cmp c d hc e _ hd2,
      siftDown_order_eq cmp c d hc _ 0 (e : Int) hd1]

/-- `sort` on a depth-only comparator is the pure heapsort `psort` of the
`order` array. -/
theorem sort_order_eq (cmp : QuadBatch → Nat → Nat → Int)
    (c : Nat → Nat → Int) (d : List Rat)
    (hc : ∀ (b : QuadBatch), b.depth = d → ∀ i j, cmp b i j = c i j)
    (b : QuadBatch) (hd : b.depth = d) :
    (b.sort cmp).order = psort c b.quadCount b.order := by
  rw [QuadBatch.sort, psort]
  have hd2 : (b.heapify cmp).depth = d := by
    rw [(heapify_frame b cmp).2.2.2.2.2.2.1, hd]
  rw [sortGo_order_eq cmp c d hc _ _ hd2, QuadBatch.heapify, pheap,
    heapifyFrom_order_eq cmp c d hc _ _ b hd]

/-- Both shipped comparators read only `depth`. -/
theorem backToFront_eq_of_depth (b1 b2 : QuadBatch)
    (hd : b1.depth = b2.depth) (i j : Nat) :
    QuadBatch.backToFront b1 i j = QuadBatch.backToFront b2 i j := by
  simp only [QuadBatch.backToFront, hd]

theorem frontToBack_eq_of_depth (b1 b2 : QuadBatch)
    (hd : b1.depth = b2.depth) (i j : Nat) :
    QuadBatch.frontToBack b1 i j = QuadBatch.frontToBack b2 i j := by
  simp only [QuadBatch.frontToBack, hd]

/-- `backToFront` describes a strict total order on stored indices
(lexicographic on depth descending, then insertion index ascending). -/
theorem backToFront_strict (b : QuadBatch) :
    StrictCmp (QuadBatch.backToFront b) := by
  constructor
  · intro x y hxy
    simp only [QuadBatch.backToFront] at *
    split_ifs at hxy ⊢ <;> first | omega | linarith
  · intro x y z hxy hyz
    simp only [QuadBatch.backToFront] at *
    split_ifs at hxy hyz ⊢ <;> try omega
    all_goals (exfalso; linarith)
  · intro x y hxy
    simp only [QuadBatch.backToFront]
    split_ifs <;> first | omega | linarith

/-- `frontToBack` likewise. -/
theorem frontToBack_strict (b : QuadBatch) :
    StrictCmp (QuadBatch.frontToBack b) := by
  constructor
  · intro x y hxy
    simp only [QuadBatch.frontToBack] at *
    split_ifs at hxy ⊢ <;> first | omega | linarith
  · intro x y z hxy hyz
    simp only [QuadBatch.frontToBack] at *
    split_ifs at hxy hyz ⊢ <;> try omega
    all_goals (exfalso; linarith)
  · intro x y hxy
    simp only [QuadBatch.frontToBack]
    split_ifs <;> first | omega | linarith

theorem cmpLe_refl (c : Nat → Nat → Int) (hs : StrictCmp c) (x : Nat) :
    cmpLe c x x := fun h => hs.asymm x x h h

theorem cmpLe_of_lt (c : Nat → Nat → Int) (hs : StrictCmp c) {x y : Nat}
    (h : c x y < 0) : cmpLe c x y := hs.asymm x y h

theorem cmpLe_trans (c : Nat → Nat → Int) (hs : StrictCmp c) {x y z : Nat}
    (h1 : cmpLe c x y) (h2 : cmpLe c y z) : cmpLe c x z := by
  intro hzx
  by_cases hxy : x = y
  · exact h2 (hxy ▸ hzx)
  rcases hs.conn x y hxy with h | h
  · exact h2 (hs.lt_trans z x y hzx h)
  · exact h1 h

theorem heapAnc_refl (r : Nat) : heapAnc r r := ⟨0, by simp⟩

theorem heapAnc_le {r j : Nat} (h : heapAnc r j) : r ≤ j := by
  obtain ⟨k, hk⟩ := h
  exact hk ▸ Nat.div_le_self j (2 ^ k)

theorem heapAnc_parent {r j : Nat} (h : heapAnc r j) (hne : j ≠ r) :
    heapAnc r (j / 2) := by
  obtain ⟨k, hk⟩ := h
  cases k with
  | zero => exact absurd (by simpa using hk) hne
  | succ k =>
    refine ⟨k, ?_⟩
    rw [← hk, Nat.pow_succ, Nat.mul_comm, ← Nat.div_div_eq_div_mul]

theorem heapAnc_of_parent {t j : Nat} (h : heapAnc t (j / 2)) : heapAnc t j := by
  obtain ⟨k, hk⟩ := h
  exact ⟨k + 1, by rw [Nat.pow_succ, Nat.mul_comm, ← Nat.div_div_eq_div_mul,
    hk]⟩

theorem heapAnc_trans {r q p : Nat} (h1 : heapAnc r q) (h2 : heapAnc q p) :
    heapAnc r p := by
  obtain ⟨k1, hk1⟩ := h1
  obtain ⟨k2, hk2⟩ := h2
  exact ⟨k2 + k1, by rw [Nat.pow_add, ← Nat.div_div_eq_div_mul, hk2, hk1]⟩

theorem heapAnc_child_left (r : Nat) : heapAnc r (2 * r) :=
  ⟨1, by rw [Nat.pow_one]; omega⟩

theorem heapAnc_child_right (r : Nat) : heapAnc r (2 * r + 1) :=
  ⟨1, by rw [Nat.pow_one]; omega⟩

theorem heapAnc_eq_or_double {x j : Nat} (h : heapAnc x j) :
    j = x ∨ 2 * x ≤ j := by
  obtain ⟨k, hk⟩ := h
  cases k with
  | zero => exact Or.inl (by simpa using hk)
  | succ k =>
    right
    have h1 : x * 2 ^ (k + 1) ≤ j := by
      rw [← hk]
      exact Nat.div_mul_le_self j _
    have h2 : 2 * x ≤ x * 2 ^ (k + 1) := by
      have : (2 : Nat) ≤ 2 ^ (k + 1) := by
        calc (2 : Nat) = 2 ^ 1 := by norm_num
        _ ≤ 2 ^ (k + 1) := Nat.pow_le_pow_right (by norm_num) (by omega)
      calc 2 * x = x * 2 := by ring
      _ ≤ x * 2 ^ (k + 1) := Nat.mul_le_mul_left x this
    omega
  
theorem heapAnc_comparable {a b p : Nat} (h1 : heapAnc a p) (h2 : heapAnc b p) :
    heapAnc a b ∨ heapAnc b a := by
  obtain ⟨k1, hk1⟩ := h1
  obtain ⟨k2, hk2⟩ := h2
  rcases Nat.le_total k1 k2 with h | h
  · right
    refine ⟨k2 - k1, ?_⟩
    rw [← hk1, Nat.div_div_eq_div_mul, ← Nat.pow_add,
      (by omega : k1 + (k2 - k1) = k2), hk2]
  · left
    refine ⟨k1 - k2, ?_⟩
    rw [← hk2, Nat.div_div_eq_div_mul, ← Nat.pow_add,
      (by omega : k2 + (k1 - k2) = k1), hk1]

theorem heapAnc_one (p : Nat) (hp : 1 ≤ p) : heapAnc 1 p := by
  induction p using Nat.strong_induction_on with
  | _ p IH =>
    rcases Nat.lt_or_ge p 2 with h | h
    · have : p = 1 := by omega
      exact this ▸ heapAnc_refl 1
    · exact heapAnc_of_parent (IH (p / 2) (by omega) (by omega))

theorem heapAnc_decomp {r p : Nat} (h : heapAnc r p) :
    p = r ∨ heapAnc (2 * r) p ∨ heapAnc (2 * r + 1) p := by
  obtain ⟨k, hk⟩ := h
  cases k with
  | zero => exact Or.inl (by simpa using hk)
  | succ k =>
    right
    have hq : (p / 2 ^ k) / 2 = r := by
      rw [Nat.div_div_eq_div_mul, ← Nat.pow_succ, hk]
    have : p / 2 ^ k = 2 * r ∨ p / 2 ^ k = 2 * r + 1 := by omega
    rcases this with h | h
    · exact Or.inl ⟨k, h⟩
    · exact Or.inr ⟨k, h⟩

theorem heapAnc_sibling_left {r : Nat} (hr : 1 ≤ r) :
    ¬ heapAnc (2 * r) (2 * r + 1) := by
  intro h
  rcases heapAnc_eq_or_double h with h | h <;> omega

theorem heapAnc_sibling_right {r : Nat} (hr : 1 ≤ r) :
    ¬ heapAnc (2 * r + 1) (2 * r) := by
  intro h
  rcases heapAnc_eq_or_double h with h | h <;> omega

theorem getD_set_self (l : List Nat) (i : Nat) (v : Nat) (h : i < l.length) :
    (l.set i v).getD i 0 = v := by
  rw [List.getD_eq_getElem?_getD, List.getElem?_set, if_pos rfl, if_pos h]
  rfl

theorem getD_set_ne (l : List Nat) (i j : Nat) (v : Nat) (h : i ≠ j) :
    (l.set i v).getD j 0 = l.getD j 0 := by
  rw [List.getD_eq_getElem?_getD, List.getElem?_set, if_neg h,
    ← List.getD_eq_getElem?_getD]

/-- If all parent edges inside the subtree of `t` hold (up to `e`), then
`t`'s stored value dominates the whole subtree. -/
theorem heap_dominance (c : Nat → Nat → Int) (hs : StrictCmp c) (e : Int)
    (a : List Nat) (t : Nat)
    (H : ∀ j : Nat, 1 ≤ j → (j : Int) ≤ e → heapAnc t (j / 2) →
      cmpLe c (a.getD j 0) (a.getD (j / 2) 0)) :
    ∀ j : Nat, heapAnc t j → (j : Int) ≤ e → cmpLe c (a.getD j 0) (a.getD t 0) := by
  intro j
  induction j using Nat.strong_induction_on with
  | _ j IH =>
    intro hanc hje
    by_cases hjt : j = t
    · subst hjt; exact cmpLe_refl c hs _
    have hj1 : 1 ≤ j := by
      rcases Nat.eq_zero_or_pos j with h0 | h1
      · subst h0
        have := heapAnc_le hanc
        omega
      · exact h1
    have hpanc : heapAnc t (j / 2) := heapAnc_parent hanc hjt
    have hedge := H j hj1 hje hpanc
    have hrec := IH (j / 2) (by omega) hpanc (by omega)
    exact cmpLe_trans c hs hedge hrec

/-- The swap step of `siftDown`: if `child` is the dominating child of `r`
in range, the root loses to it, and the loop (continued at `child` on the
swapped array, with conclusions `IH`) restores the heap below `child`, then
all four sift invariants hold for the result relative to the original
array. -/
theorem psift_swap_glue (c : Nat → Nat → Int) (hs : StrictCmp c) (e : Int)
    (a : List Nat) (r child : Nat)
    (hlen : e < (a.length : Int))
    (hchild2 : child = 2 * r ∨ child = 2 * r + 1)
    (hchne : child ≠ r)
    (hche : (child : Int) ≤ e)
    (hre : (r : Int) ≤ e)
    (hmax : ∀ j : Nat, 1 ≤ j → (j : Int) ≤ e → j / 2 = r → j ≠ child →
      cmpLe c (a.getD j 0) (a.getD child 0))
    (A : ∀ j : Nat, 1 ≤ j → (j : Int) ≤ e → heapAnc r (j / 2) → j / 2 ≠ r →
      cmpLe c (a.getD j 0) (a.getD (j / 2) 0))
    (hsw : c (a.getD r 0) (a.getD child 0) < 0)
    (b2 : List Nat)
    (hb2 : b2 = (a.set child (a.getD r 0)).set r (a.getD child 0))
    (res : List Nat)
    (IH : (∀ j : Nat, 1 ≤ j → (j : Int) ≤ e → heapAnc child (j / 2) →
        j / 2 ≠ child → cmpLe c (b2.getD j 0) (b2.getD (j / 2) 0)) →
      (∀ p : Nat, ¬ heapAnc child p → res.getD p 0 = b2.getD p 0) ∧
      (∀ p : Nat, e < (p : Int) → res.getD p 0 = b2.getD p 0) ∧
      (∀ j : Nat, 1 ≤ j → (j : Int) ≤ e → heapAnc child (j / 2) →
        cmpLe c (res.getD j 0) (res.getD (j / 2) 0)) ∧
      (∀ p : Nat, heapAnc child p → (p : Int) ≤ e →
        ∃ q : Nat, heapAnc child q ∧ (q : Int) ≤ e ∧
          res.getD p 0 = b2.getD q 0)) :
    (∀ p : Nat, ¬ heapAnc r p → res.getD p 0 = a.getD p 0) ∧
    (∀ p : Nat, e < (p : Int) → res.getD p 0 = a.getD p 0) ∧
    (∀ j : Nat, 1 ≤ j → (j : Int) ≤ e → heapAnc r (j / 2) →
      cmpLe c (res.getD j 0) (res.getD (j / 2) 0)) ∧
    (∀ p : Nat, heapAnc r p → (p : Int) ≤ e →
      ∃ q : Nat, heapAnc r q ∧ (q : Int) ≤ e ∧ res.getD p 0 = a.getD q 0) := by
  have hchr : heapAnc r child := by
    rcases hchild2 with hc | hc
    · exact hc ▸ heapAnc_child_left r
    · exact hc ▸ heapAnc_child_right r
  have hrc : r < child := by rcases hchild2 with hc | hc <;> omega
  have hrlen : r < a.length := by omega
  have hclen : child < a.length := by omega
  have hchdiv : child / 2 = r := by rcases hchild2 with hc | hc <;> omega
  have hb2r : b2.getD r 0 = a.getD child 0 := by
    rw [hb2]
    exact getD_set_self _ r _ (by rw [List.length_set]; omega)
  have hb2c : b2.getD child 0 = a.getD r 0 := by
    rw [hb2, getD_set_ne _ r child _ (by omega), getD_set_self _ child _ hclen]
  have hb2o : ∀ p : Nat, p ≠ r → p ≠ child → b2.getD p 0 = a.getD p 0 := by
    intro p h1 h2
    rw [hb2, getD_set_ne _ r p _ (by omega), getD_set_ne _ child p _ (by omega)]
  have hA2 : ∀ j : Nat, 1 ≤ j → (j : Int) ≤ e → heapAnc child (j / 2) →
      j / 2 ≠ child → cmpLe c (b2.getD j 0) (b2.getD (j / 2) 0) := by
    intro j hj1 hje hanc hne
    have hjanc : heapAnc child j := heapAnc_of_parent hanc
    have hjc : j ≠ child := by
      intro hh
      subst hh
      have := heapAnc_le hanc
      omega
    have hjr : j ≠ r := by
      have := heapAnc_le hjanc
      omega
    have hj2r : j / 2 ≠ r := by
      have := heapAnc_le hanc
      omega
    rw [hb2o j hjr hjc, hb2o (j / 2) hj2r hne]
    exact A j hj1 hje (heapAnc_trans hchr hanc) hj2r
  obtain ⟨F1, F2, F3, F4⟩ := IH hA2
  have hresr : res.getD r 0 = a.getD child 0 := by
    rw [F1 r (fun hh => by have := heapAnc_le hh; omega), hb2r]
  have hdom : ∀ q : Nat, heapAnc child q → (q : Int) ≤ e →
      cmpLe c (a.getD q 0) (a.getD child 0) := by
    refine heap_dominance c hs e a child ?_
    intro j' hj'1 hj'e hj'anc
    exact A j' hj'1 hj'e (heapAnc_trans hchr hj'anc)
      (by have := heapAnc_le hj'anc; omega)
  refine ⟨?_, ?_, ?_, ?_⟩
  · -- frame outside subtree(r)
    intro p hp
    have hpc : ¬ heapAnc child p := fun hh => hp (heapAnc_trans hchr hh)
    have hpr : p ≠ r := fun hh => hp (hh ▸ heapAnc_refl r)
    have hpch : p ≠ child := fun hh => hp (hh ▸ hchr)
    rw [F1 p hpc, hb2o p hpr hpch]
  · -- frame beyond e
    intro p hp
    rw [F2 p hp, hb2o p (by omega) (by omega)]
  · -- heap edges with parent in subtree(r)
    intro j hj1 hje hancP
    by_cases hc2 : heapAnc child (j / 2)
    · exact F3 j hj1 hje hc2
    by_cases hpr : j / 2 = r
    · have hj2 : j = 2 * r ∨ j = 2 * r + 1 := by omega
      by_cases hjc : j = child
      · subst hjc
        rw [hpr]
        obtain ⟨q, hqanc, hqe, hqeq⟩ := F4 j (heapAnc_refl j) hje
        rw [hresr, hqeq]
        by_cases hqc : q = j
        · subst hqc
          rw [hb2c]
          exact cmpLe_of_lt c hs hsw
        · rw [hb2o q (by have := heapAnc_le hqanc; omega) hqc]
          exact hdom q hqanc hqe
      · have hjchild_ne : ¬ heapAnc child j := by
          rcases hchild2 with hc | hc <;> rcases hj2 with hj | hj
          · exact absurd (hj ▸ hc.symm) hjc
          · subst hc; subst hj
            exact heapAnc_sibling_left (by omega)
          · subst hc; subst hj
            exact heapAnc_sibling_right (by omega)
          · exact absurd (hj ▸ hc.symm) hjc
        have hjr : j ≠ r := by omega
        rw [hpr, F1 j hjchild_ne, hb2o j hjr hjc, hresr]
        exact hmax j hj1 hje hpr hjc
    · have hjc : j ≠ child := by
        intro hh
        subst hh
        exact hpr hchdiv
      have hjnt : ¬ heapAnc child j := fun hh =>
        hc2 (heapAnc_parent hh hjc)
      have hjr : j ≠ r := by
        intro hh
        subst hh
        have := heapAnc_le hancP
        omega
      have hj2c : j / 2 ≠ child := fun hh =>
        hc2 (hh ▸ heapAnc_refl child)
      rw [F1 j hjnt, F1 (j / 2) hc2, hb2o j hjr hjc, hb2o (j / 2) hpr hj2c]
      exact A j hj1 hje hancP hpr
  · -- reachability of values
    intro p hanc hpe
    by_cases hcp : heapAnc child p
    · obtain ⟨q, hq1, hq2, hq3⟩ := F4 p hcp hpe
      by_cases hqc : q = child
      · subst hqc
        rw [hq3, hb2c]
        exact ⟨r, heapAnc_refl r, hre, rfl⟩
      · rw [hq3, hb2o q (by have := heapAnc_le hq1; omega) hqc]
        exact ⟨q, heapAnc_trans hchr hq1, hq2, rfl⟩
    · by_cases hpr : p = r
      · subst hpr
        rw [hresr]
        exact ⟨child, hchr, hche, rfl⟩
      · rw [F1 p hcp, hb2o p hpr (fun hh => hcp (hh ▸ heapAnc_refl child))]
        exact ⟨p, hanc, hpe, rfl⟩

/-- Local specification of the sift loop: from a state where all parent
edges strictly inside the subtree of `r` hold, sifting at `r` (with enough
fuel) yields all parent edges with parent in the subtree of `r`, changes
nothing outside that subtree or beyond `e`, and fills every subtree slot
with a value previously stored in the subtree. -/
theorem psift_local (c : Nat → Nat → Int) (hs : StrictCmp c) (e : Int) :
    ∀ (fuel r : Nat) (a : List Nat),
    e < (a.length : Int) → e.toNat < r + fuel →
    (∀ j : Nat, 1 ≤ j → (j : Int) ≤ e → heapAnc r (j / 2) → j / 2 ≠ r →
      cmpLe c (a.getD j 0) (a.getD (j / 2) 0)) →
    (∀ p : Nat, ¬ heapAnc r p → (psiftFuel c e fuel r a).getD p 0 = a.getD p 0) ∧
    (∀ p : Nat, e < (p : Int) → (psiftFuel c e fuel r a).getD p 0 = a.getD p 0) ∧
    (∀ j : Nat, 1 ≤ j → (j : Int) ≤ e → heapAnc r (j / 2) →
      cmpLe c ((psiftFuel c e fuel r a).getD j 0)
        ((psiftFuel c e fuel r a).getD (j / 2) 0)) ∧
    (∀ p : Nat, heapAnc r p → (p : Int) ≤ e →
      ∃ q : Nat, heapAnc r q ∧ (q : Int) ≤ e ∧
        (psiftFuel c e fuel r a).getD p 0 = a.getD q 0)
  | 0, r, a, hlen, hfuel, A => by
    refine ⟨fun p _ => rfl, fun p _ => rfl, ?_, fun p hp hpe => ⟨p, hp, hpe, rfl⟩⟩
    intro j hj1 hje hanc
    have h1 := heapAnc_le hanc
    omega
  | fuel + 1, r, a, hlen, hfuel, A => by
    simp only [psiftFuel]
    split
    case isFalse hg =>
      refine ⟨fun p _ => rfl, fun p _ => rfl, ?_, fun p hp hpe => ⟨p, hp, hpe, rfl⟩⟩
      intro j hj1 hje hanc
      by_cases hpr : j / 2 = r
      · omega
      · exact A j hj1 hje hanc hpr
    case isTrue hg =>
    split
    case isTrue hc1 =>
      -- child = 2r + 1 (right child exists and dominates)
      split
      case isTrue hsw =>
        refine psift_swap_glue c hs e a r (2 * r + 1) hlen (Or.inr rfl)
          (by omega) (by omega) (by omega) ?_ A hsw _ rfl _
          (psift_local c hs e fuel (2 * r + 1) _
            (by simpa using hlen) (by omega) )
        intro j hj1 hje hpr hjc
        have hj : j = 2 * r := by omega
        subst hj
        exact cmpLe_of_lt c hs hc1.2
      case isFalse hsw =>
        refine ⟨fun p _ => rfl, fun p _ => rfl, ?_, fun p hp hpe => ⟨p, hp, hpe, rfl⟩⟩
        intro j hj1 hje hanc
        by_cases hpr : j / 2 = r
        · have hj2 : j = 2 * r ∨ j = 2 * r + 1 := by omega
          rw [hpr]
          rcases hj2 with hj | hj
          · subst hj
            exact cmpLe_trans c hs (cmpLe_of_lt c hs hc1.2) hsw
          · subst hj
            exact hsw
        · exact A j hj1 hje hanc hpr
    case isFalse hc1 =>
      -- child = 2r (left child only, or right does not dominate)
      split
      case isTrue hsw =>
        by_cases hr0 : r = 0
        · subst hr0
          simp only [Nat.mul_zero] at hsw
          exact absurd hsw (cmpLe_refl c hs _)
        · refine psift_swap_glue c hs e a r (2 * r) hlen (Or.inl rfl)
            (by omega) (by omega) (by omega) ?_ A hsw _ rfl _
            (psift_local c hs e fuel (2 * r) _
              (by simpa using hlen) (by omega))
          intro j hj1 hje hpr hjc
          have hj : j = 2 * r + 1 := by omega
          subst hj
          have h2re : ((2 * r : Nat) : Int) < e := by push_cast at hje ⊢; omega
          have hle : ¬ c (a.getD (2 * r) 0) (a.getD (2 * r + 1) 0) < 0 := by
            intro hh
            exact hc1 ⟨h2re, hh⟩
          exact hle
      case isFalse hsw =>
        refine ⟨fun p _ => rfl, fun p _ => rfl, ?_, fun p hp hpe => ⟨p, hp, hpe, rfl⟩⟩
        intro j hj1 hje hanc
        by_cases hpr : j / 2 = r
        · have hj2 : j = 2 * r ∨ j = 2 * r + 1 := by omega
          rw [hpr]
          rcases hj2 with hj | hj
          · subst hj
            exact hsw
          · subst hj
            have h2re : ((2 * r : Nat) : Int) < e := by push_cast at hje ⊢; omega
            have hle : ¬ c (a.getD (2 * r) 0) (a.getD (2 * r + 1) 0) < 0 := by
              intro hh
              exact hc1 ⟨h2re, hh⟩
            exact cmpLe_trans c hs hle hsw
        · exact A j hj1 hje hanc hpr

theorem psiftFuel_length (c : Nat → Nat → Int) (e : Int) :
    ∀ (fuel r : Nat) (a : List Nat), (psiftFuel c e fuel r a).length = a.length
  | 0, _, _ => rfl
  | fuel + 1, r, a => by
    simp only [psiftFuel]
    split
    · split <;> split
      · rw [psiftFuel_length c e fuel]
        simp
      · rfl
      · rw [psiftFuel_length c e fuel]
        simp
      · rfl
    · rfl

theorem heapAnc_zero (x : Nat) : heapAnc 0 x := by
  refine ⟨x + 1, Nat.div_eq_of_lt ?_⟩
  calc x < 2 ^ x := Nat.lt_two_pow x
  _ ≤ 2 ^ (x + 1) := Nat.pow_le_pow_right (by norm_num) (by omega)

/-- `psift` at root 0 (with the standard fuel) turns "all edges except at
the top" into a full heap, touching only positions up to `e`. -/
theorem psift_top_spec (c : Nat → Nat → Int) (hs : StrictCmp c) (e : Int)
    (a : List Nat) (hlen : e < (a.length : Int))
    (A : ∀ j : Nat, 1 ≤ j → (j : Int) ≤ e → j / 2 ≠ 0 →
      cmpLe c (a.getD j 0) (a.getD (j / 2) 0)) :
    IsHeapUpTo c e (psift c e 0 a) ∧
    (∀ p : Nat, e < (p : Int) → (psift c e 0 a).getD p 0 = a.getD p 0) ∧
    (∀ p : Nat, (p : Int) ≤ e →
      ∃ q : Nat, (q : Int) ≤ e ∧ (psift c e 0 a).getD p 0 = a.getD q 0) := by
  have h := psift_local c hs e (e.toNat + 2) 0 a hlen (by omega)
    (fun j hj1 hje _ hne => A j hj1 hje hne)
  refine ⟨fun j hj1 hje => h.2.2.1 j hj1 hje (heapAnc_zero _), h.2.1, ?_⟩
  intro p hpe
  obtain ⟨q, _, hq2, hq3⟩ := h.2.2.2 p (heapAnc_zero p) hpe
  exact ⟨q, hq2, hq3⟩

/-- Bottom-up heapify: processing roots `s, s-1, ..., 0` when all edges
with parent above `s` already hold yields a heap on `[0, e]`. -/
theorem pheapFrom_spec (c : Nat → Nat → Int) (hs : StrictCmp c) (e : Int) :
    ∀ (s : Nat) (a : List Nat), e < (a.length : Int) →
    (∀ j : Nat, 1 ≤ j → (j : Int) ≤ e → s < j / 2 →
      cmpLe c (a.getD j 0) (a.getD (j / 2) 0)) →
    IsHeapUpTo c e (pheapFrom c e s a)
  | 0, a, hlen, H => by
    rw [pheapFrom]
    exact (psift_top_spec c hs e a hlen
      (fun j hj1 hje hne => H j hj1 hje (by omega))).1
  | s + 1, a, hlen, H => by
    rw [pheapFrom]
    have hsl := psift_local c hs e (e.toNat + 2) (s + 1) a hlen (by omega)
      (fun j hj1 hje hanc hne => by
        have h1 := heapAnc_le hanc
        exact H j hj1 hje (by
          rcases heapAnc_eq_or_double hanc with hh | hh <;> omega))
    refine pheapFrom_spec c hs e s (psift c e (s + 1) a)
      (by rw [psift, psiftFuel_length]; exact hlen) ?_
    intro j hj1 hje hgt
    by_cases hanc : heapAnc (s + 1) (j / 2)
    · exact hsl.2.2.1 j hj1 hje hanc
    · have hj2ne : j / 2 ≠ s + 1 := fun hh => hanc (hh ▸ heapAnc_refl _)
      have hjne : ¬ heapAnc (s + 1) j := fun hh => by
        by_cases hjeq : j = s + 1
        · subst hjeq
          omega
        · exact hanc (heapAnc_parent hh hjeq)
      rw [psift, hsl.1 j hjne, hsl.1 (j / 2) hanc]
      exact H j hj1 hje (by omega)

/-- After `pheap`, the first `n` slots form a heap. -/
theorem pheap_spec (c : Nat → Nat → Int) (hs : StrictCmp c) (n : Nat)
    (a : List Nat) (hlen : (n : Int) - 1 < (a.length : Int)) :
    IsHeapUpTo c ((n : Int) - 1) (pheap c n a) := by
  rw [pheap]
  refine pheapFrom_spec c hs ((n : Int) - 1) (n / 2) a hlen ?_
  intro j hj1 hje hgt
  omega

/-- The selection phase of heapsort: starting from a heap on `[0, e]` whose
elements all precede an already-sorted tail `(e, m]`, the loop leaves the
whole range `[0, m]` sorted for the comparator. -/
theorem psortGo_sorted (c : Nat → Nat → Int) (hs : StrictCmp c) (m : Nat) :
    ∀ (e : Nat) (a : List Nat), (m : Int) < (a.length : Int) → e ≤ m →
    IsHeapUpTo c (e : Int) a →
    (∀ i j : Nat, i ≤ e → e < j → j ≤ m → cmpLe c (a.getD i 0) (a.getD j 0)) →
    (∀ j j' : Nat, e < j → j ≤ j' → j' ≤ m → cmpLe c (a.getD j 0) (a.getD j' 0)) →
    ∀ i j : Nat, i ≤ j → j ≤ m →
      cmpLe c ((psortGo c e a).getD i 0) ((psortGo c e a).getD j 0)
  | 0, a, hlen, he, hheap, hcross, htail => by
    intro i j hij hjm
    rw [psortGo]
    rcases Nat.eq_zero_or_pos j with hj0 | hjpos
    · subst hj0
      have hi0 : i = 0 := by omega
      subst hi0
      exact cmpLe_refl c hs _
    · rcases Nat.eq_zero_or_pos i with hi0 | hipos
      · subst hi0
        exact hcross 0 j (le_refl 0) hjpos hjm
      · exact htail i j hipos hij hjm
  | e + 1, a, hlen, he, hheap, hcross, htail => by
    intro i j hij hjm
    simp only [psortGo]
    have hmlen : m < a.length := by exact_mod_cast hlen
    have hlen0 : 0 < a.length := by omega
    have hlene : e + 1 < a.length := by omega
    set a2 := (a.set 0 (a.getD (e + 1) 0)).set (e + 1) (a.getD 0 0) with ha2
    have h20 : a2.getD 0 0 = a.getD (e + 1) 0 := by
      rw [ha2, getD_set_ne _ _ _ _ (by omega), getD_set_self _ _ _ hlen0]
    have h2e : a2.getD (e + 1) 0 = a.getD 0 0 := by
      rw [ha2]
      exact getD_set_self _ _ _ (by simpa using hlene)
    have h2p : ∀ p : Nat, p ≠ 0 → p ≠ e + 1 → a2.getD p 0 = a.getD p 0 := by
      intro p hp0 hpe
      rw [ha2, getD_set_ne _ _ _ _ (Ne.symm hpe), getD_set_ne _ _ _ _ (Ne.symm hp0)]
    have hlen2 : a2.length = a.length := by rw [ha2]; simp
    have hspec := psift_top_spec c hs (e : Int) a2
      (by rw [hlen2]; exact_mod_cast (by omega : (e : Int) < (a.length : Int)))
      (by
        intro j hj1 hje hne
        have hjeN : j ≤ e := by exact_mod_cast hje
        have hj2 : 2 ≤ j := by omega
        rw [h2p j (by omega) (by omega), h2p (j / 2) (by omega) (by omega)]
        exact hheap j hj1 (by push_cast; omega))
    have hdom : ∀ p : Nat, (p : Int) ≤ (e : Int) + 1 →
        cmpLe c (a.getD p 0) (a.getD 0 0) :=
      fun p hp => heap_dominance c hs ((e : Int) + 1) a 0
        (fun j hj1 hje _ => hheap j hj1 (by push_cast; push_cast at hje; omega))
        p (heapAnc_zero p) hp
    have hlen3 : (psift c (e : Int) 0 a2).length = a.length := by
      rw [psift, psiftFuel_length, hlen2]
    refine psortGo_sorted c hs m e (psift c (e : Int) 0 a2)
      (by rw [hlen3]; exact hlen) (by omega) hspec.1 ?_ ?_ i j hij hjm
    · intro i' j' hi' hj' hj'm
      obtain ⟨q, hqe, hqv⟩ := hspec.2.2 i' (by exact_mod_cast hi')
      have hqeN : q ≤ e := by exact_mod_cast hqe
      obtain ⟨q', hq', hq'v⟩ :
          ∃ q' : Nat, q' ≤ e + 1 ∧
            (psift c (e : Int) 0 a2).getD i' 0 = a.getD q' 0 := by
        rcases Nat.eq_zero_or_pos q with hq0 | hqpos
        · subst hq0
          exact ⟨e + 1, le_refl _, by rw [hqv, h20]⟩
        · exact ⟨q, by omega, by rw [hqv, h2p q (by omega) (by omega)]⟩
      rw [hq'v]
      have hjv := hspec.2.1 j' (by exact_mod_cast hj')
      rcases Nat.lt_or_ge (e + 1) j' with hjg | hjl
      · rw [hjv, h2p j' (by omega) (by omega)]
        exact hcross q' j' hq' hjg hj'm
      · have hje1 : j' = e + 1 := by omega
        subst hje1
        rw [hjv, h2e]
        exact hdom q' (by push_cast; omega)
    · intro j' j'' hj' hjj hj''m
      rw [hspec.2.1 j' (by exact_mod_cast hj'),
        hspec.2.1 j'' (by exact_mod_cast (by omega : e < j''))]
      rcases Nat.lt_or_ge (e + 1) j' with hjg | hjl
      · rw [h2p j' (by omega) (by omega), h2p j'' (by omega) (by omega)]
        exact htail j' j'' hjg hjj hj''m
      · have hje1 : j' = e + 1 := by omega
        subst hje1
        rw [h2e]
        rcases Nat.lt_or_ge (e + 1) j'' with hjg2 | hjl2
        · rw [h2p j'' (by omega) (by omega)]
          exact hcross 0 j'' (by omega) hjg2 hj''m
        · have hje2 : j'' = e + 1 := by omega
          subst hje2
          rw [h2e]
          exact cmpLe_refl c hs _

theorem pheapFrom_length (c : Nat → Nat → Int) (e : Int) :
    ∀ (s : Nat) (a : List Nat), (pheapFrom c e s a).length = a.length
  | 0, a => by rw [pheapFrom, psift, psiftFuel_length]
  | s + 1, a => by
    rw [pheapFrom, pheapFrom_length c e s, psift, psiftFuel_length]

/-- Full pure heapsort correctness: the result is sorted for the
comparator on the first `n` positions. -/
theorem psort_sorted (c : Nat → Nat → Int) (hs : StrictCmp c) (n : Nat)
    (a : List Nat) (hn : 1 ≤ n) (hlen : n ≤ a.length) :
    ∀ i j : Nat, i ≤ j → j ≤ n - 1 →
      cmpLe c ((psort c n a).getD i 0) ((psort c n a).getD j 0) := by
  rw [psort]
  have hlenh : (pheap c n a).length = a.length := by
    rw [pheap, pheapFrom_length]
  have hheap := pheap_spec c hs n a (by push_cast; omega)
  have hcast : ((n - 1 : Nat) : Int) = (n : Int) - 1 := by omega
  exact psortGo_sorted c hs (n - 1) (n - 1) (pheap c n a)
    (by rw [hlenh]; omega) (le_refl _) (by rw [hcast]; exact hheap)
    (fun i j _ h1 h2 => absurd h1 (by omega))
    (fun j j' h1 h2 h3 => absurd h1 (by omega))

/-- C6: sort stability under depth ties.  For every batch in insertion
order (`order[i] = i` for the stored quads) and every pair of quads with
equal depth, sorting with either `QuadBatch.backToFront` or
`QuadBatch.frontToBack` keeps the quad with the smaller insertion index
in front of the other in `order[]`. -/
theorem c6_sort_stability (b : QuadBatch)
    (cmp : QuadBatch → Nat → Nat → Int)
    (hcmp : cmp = QuadBatch.backToFront ∨ cmp = QuadBatch.frontToBack)
    (horder : b.order.take b.quadCount = List.range b.quadCount)
    (hq : b.quadCount ≤ b.order.length)
    (ia ib : Nat) (hia : ia < ib) (hib : ib < b.quadCount)
    (hdep : b.depth.getD ia 0 = b.depth.getD ib 0) :
    List.indexOf ia ((b.sort cmp).order.take b.quadCount) <
      List.indexOf ib ((b.sort cmp).order.take b.quadCount) := by
  have hn2 : 2 ≤ b.quadCount := by omega
  have hc : ∀ (b2 : QuadBatch), b2.depth = b.depth →
      ∀ i j, cmp b2 i j = cmp b i j := by
    rcases hcmp with h | h <;> subst h
    · exact fun b2 hd i j => backToFront_eq_of_depth b2 b hd i j
    · exact fun b2 hd i j => frontToBack_eq_of_depth b2 b hd i j
  have hs : StrictCmp (cmp b) := by
    rcases hcmp with h | h <;> subst h
    · exact backToFront_strict b
    · exact frontToBack_strict b
  have hlt : cmp b ia ib < 0 := by
    rcases hcmp with h | h <;> subst h <;>
      simp only [QuadBatch.backToFront, QuadBatch.frontToBack] <;>
      rw [hdep] <;> split_ifs <;> first | omega | linarith
  have hEq : (b.sort cmp).order = psort (cmp b) b.quadCount b.order :=
    sort_order_eq cmp (cmp b) b.depth hc b rfl
  have hsorted := psort_sorted (cmp b) hs b.quadCount b.order (by omega) hq
  have hperm := sort_order_take_perm b cmp hq (by omega)
  have hmem_a : ia ∈ (b.sort cmp).order.take b.quadCount := by
    rw [hperm.mem_iff, horder]
    exact List.mem_range.mpr (by omega)
  have hmem_b : ib ∈ (b.sort cmp).order.take b.quadCount := by
    rw [hperm.mem_iff, horder]
    exact List.mem_range.mpr hib
  set L := (b.sort cmp).order.take b.quadCount with hL
  have hlenL : L.length = b.quadCount := by
    rw [hL, List.length_take,
      (sort_order_perm b cmp hq (by omega)).1.length_eq]
    omega
  have hpa : L.indexOf ia < L.length := List.indexOf_lt_length.mpr hmem_a
  have hpb : L.indexOf ib < L.length := List.indexOf_lt_length.mpr hmem_b
  have hget : ∀ k, k < b.quadCount →
      L.getD k 0 = (psort (cmp b) b.quadCount b.order).getD k 0 := by
    intro k hk
    rw [hL, hEq, List.getD_eq_getElem?_getD, List.getD_eq_getElem?_getD,
      List.getElem?_take, if_pos hk]
  have hia_val : L.getD (L.indexOf ia) 0 = ia := by
    rw [List.getD_eq_getElem _ _ hpa]
    exact List.getElem_indexOf hpa
  have hib_val : L.getD (L.indexOf ib) 0 = ib := by
    rw [List.getD_eq_getElem _ _ hpb]
    exact List.getElem_indexOf hpb
  by_contra hcon
  push_neg at hcon
  have hne : L.indexOf ib ≠ L.indexOf ia := by
    intro hh
    rw [← hh] at hia_val
    rw [hia_val] at hib_val
    omega
  have hqp : L.indexOf ib < L.indexOf ia := lt_of_le_of_ne hcon hne
  have hstep := hsorted (L.indexOf ib) (L.indexOf ia) (le_of_lt hqp)
    (by omega)
  rw [← hget _ (by omega), ← hget _ (by omega), hia_val, hib_val] at hstep
  exact hstep hlt

theorem c6_sort_stability_witness :
    List.indexOf 0 ((c6Batch.sort QuadBatch.backToFront).order.take
      c6Batch.quadCount) <
    List.indexOf 2 ((c6Batch.sort QuadBatch.backToFront).order.take
      c6Batch.quadCount) :=
  c6_sort_stability c6Batch QuadBatch.backToFront (Or.inl rfl) (by decide)
    (by decide) 0 2 (by decide) (by decide) (by decide)
